import Mathlib

/-!
Verification of the git-doc core against its specification.

The development shallowly embeds the relevant TypeScript source files:

* src/app/api/summarize/route.ts - the summarization batch engine
  (selection query, per-commit loop, rate-limit handling, response shape);
* src/app/api/export/route.ts - the report compiler (commit filter,
  file-history construction, merge-commit heuristic, message cleaning,
  workbook serialization and ExportJob persistence);
* lib/ai.ts - summarizeCommit's rate-limit sentinel and
  generateProgressReport / buildLocalSummary;
* the commit-storing step of the extraction service (modelled from the
  spec, since the Rust service is not part of the embedded sources).

External effects (the Gemini call, the database, the filesystem) are
modelled as explicit oracle parameters: a call either throws or returns a
text, and database state is threaded as a list of rows.  Stores returned
by the database query are represented as lists already carrying the query
order (commit date descending for the summarize query, ascending for the
export query), which the corresponding theorems state as a sortedness
hypothesis where it matters.
-/

namespace GitDoc

/-! ## Character-list string utilities (JS includes / startsWith / toLowerCase) -/

/-- Decides whether the list p is a prefix of l (character-wise equality). -/
def listIsPre : List Char → List Char → Bool
  | [], _ => true
  | _ :: _, [] => false
  | a :: p, b :: l => a == b && listIsPre p l

/-- Decides whether p occurs as a contiguous sublist of l, like JS includes. -/
def listIncl : List Char → List Char → Bool
  | [], p => listIsPre p []
  | c :: l, p => listIsPre p (c :: l) || listIncl l p

/-- Embedding of the JS expression s.includes(pat). -/
def strIncludes (s pat : String) : Bool :=
  listIncl s.data pat.data

/-- Embedding of the JS expression s.startsWith(pat). -/
def strStarts (s pat : String) : Bool :=
  listIsPre pat.data s.data

/-- Embedding of the JS expression s.toLowerCase() (ASCII letters). -/
def strToLower (s : String) : String :=
  ⟨s.data.map Char.toLower⟩

/-- The proposition that t occurs as a contiguous substring of s. -/
def ContainsStr (s t : String) : Prop :=
  ∃ pre post, s.data = pre ++ t.data ++ post

theorem listIsPre_iff (p l : List Char) :
    listIsPre p l = true ↔ ∃ post, l = p ++ post := by
  induction p generalizing l with
  | nil => simp [listIsPre]
  | cons a p ih =>
    cases l with
    | nil => simp [listIsPre]
    | cons b l =>
      simp only [listIsPre, Bool.and_eq_true, beq_iff_eq, ih]
      constructor
      · rintro ⟨rfl, post, rfl⟩
        exact ⟨post, rfl⟩
      · rintro ⟨post, h⟩
        cases h
        exact ⟨rfl, post, rfl⟩

theorem listIncl_iff (l p : List Char) :
    listIncl l p = true ↔ ∃ pre post, l = pre ++ p ++ post := by
  induction l with
  | nil =>
    simp only [listIncl, listIsPre_iff]
    constructor
    · rintro ⟨post, h⟩
      exact ⟨[], post, by simpa using h⟩
    · rintro ⟨pre, post, h⟩
      exact ⟨post, by
        cases pre with
        | nil => simpa using h
        | cons x xs => simp at h⟩
  | cons c l ih =>
    simp only [listIncl, Bool.or_eq_true, listIsPre_iff, ih]
    constructor
    · rintro (⟨post, h⟩ | ⟨pre, post, h⟩)
      · exact ⟨[], post, by simpa using h⟩
      · exact ⟨c :: pre, post, by simp [h]⟩
    · rintro ⟨pre, post, h⟩
      cases pre with
      | nil => exact Or.inl ⟨post, by simpa using h⟩
      | cons x xs =>
        simp only [List.cons_append, List.cons.injEq] at h
        exact Or.inr ⟨xs, post, by simp [h.2]⟩

theorem strIncludes_iff (s pat : String) :
    strIncludes s pat = true ↔ ∃ pre post, s.data = pre ++ pat.data ++ post :=
  listIncl_iff s.data pat.data

/-! ## Data model -/

/-- Commit date-time, as stored in the database: calendar day plus the
second within the day.  The summarize query orders by this value
(descending); the export sheet formats only the calendar day. -/
structure DateTime where
  year : Nat
  month : Nat
  day : Nat
  secOfDay : Nat
deriving DecidableEq, Repr

/-- Lexicographic comparison of two date-times. -/
def dateLE (a b : DateTime) : Bool :=
  if a.year ≠ b.year then decide (a.year < b.year)
  else if a.month ≠ b.month then decide (a.month < b.month)
  else if a.day ≠ b.day then decide (a.day < b.day)
  else decide (a.secOfDay ≤ b.secOfDay)

/-- The summaryStatus enum of the Commit row. -/
inductive SummaryStatus where
  | PENDING
  | PROCESSING
  | COMPLETED
  | FAILED
deriving DecidableEq, Repr

/-- A Commit row, with the fields the summarize and export routes read or
write.  changedPaths is the newline-separated path list, as stored. -/
structure Commit where
  id : String
  repositoryId : String
  sha : String
  authorName : String
  authorEmail : String
  commitDate : DateTime
  message : String
  messageTitle : String
  changedPaths : String
  filesChanged : Nat
  summary : Option String
  summaryStatus : SummaryStatus
deriving DecidableEq, Repr

/-! ## Summarization engine (src/app/api/summarize/route.ts, POST)

The batch selects commits via the Prisma query
findMany \x7b where: \x7b summaryStatus: PENDING, id?, repositoryId? \x7d,
take: 10, orderBy: commitDate desc \x7d and then processes them
sequentially.  The store is the list of Commit rows; the summarize
theorems take it in the query order (commit date descending), so the
query is filter-then-take-10 over the list. -/

/-- The optional scope of a summarize request: commitIds and repoId. -/
structure BatchScope where
  commitIds : Option (List String)
  repoId : Option String
deriving DecidableEq, Repr

/-- The where-clause of the selection query: summaryStatus must be
PENDING, and the optional commitIds / repositoryId restrictions apply. -/
def eligible (sc : BatchScope) (c : Commit) : Bool :=
  c.summaryStatus == .PENDING &&
  (match sc.commitIds with
   | some ids => ids.contains c.id
   | none => true) &&
  (match sc.repoId with
   | some r => c.repositoryId == r
   | none => true)

/-- The batch selection: the first 10 eligible rows of the
date-descending store. -/
def selectBatch (sc : BatchScope) (st : List Commit) : List Commit :=
  (st.filter (eligible sc)).take 10

/-- Row update prisma.commit.update setting summaryStatus, keyed by id. -/
def updStatus (i : String) (s : SummaryStatus) (c : Commit) : Commit :=
  if c.id = i then { c with summaryStatus := s } else c

/-- Row update storing the generated summary and marking COMPLETED. -/
def updDone (i : String) (txt : String) (c : Commit) : Commit :=
  if c.id = i then { c with summary := some txt, summaryStatus := .COMPLETED } else c

/-- Applies a row update across the store. -/
def setRow (st : List Commit) (u : Commit → Commit) : List Commit :=
  st.map u

/-- The sentinel substring the route tests for with
summary.includes(rlMark); summarizeCommit returns
"Rate limited - please retry later" on a 429 / RESOURCE_EXHAUSTED. -/
def rlMark : String := "Rate limited"

/-- The route's rate-limit classification of a generator response. -/
def isRateLimited (txt : String) : Bool :=
  strIncludes txt rlMark

/-- Outcome of one summarizeCommit attempt: the text it resolved to, or
an exception thrown by one of the awaited steps of the loop body. -/
abbrev Gen := Commit → Except String String

/-- The aggregated batch result \x7bsuccess, failed, rateLimited\x7d. -/
structure BatchTotals where
  success : Nat
  failed : Nat
  rateLimited : Bool
deriving DecidableEq, Repr

/-- The sequential per-commit loop of the route: mark PROCESSING, call the
generator, then either revert to PENDING and stop (rate limit), store the
summary as COMPLETED, or record FAILED and continue (thrown error). -/
def processCommits (gen : Gen) : List Commit → List Commit → BatchTotals × List Commit
  | [], st => (⟨0, 0, false⟩, st)
  | c :: rest, st =>
    let st1 := setRow st (updStatus c.id .PROCESSING)
    match gen c with
    | .error _ =>
      let st2 := setRow st1 (updStatus c.id .FAILED)
      let r := processCommits gen rest st2
      (⟨r.1.success, r.1.failed + 1, r.1.rateLimited⟩, r.2)
    | .ok txt =>
      if isRateLimited txt then
        (⟨0, 0, true⟩, setRow st1 (updStatus c.id .PENDING))
      else
        let st2 := setRow st1 (updDone c.id txt)
        let r := processCommits gen rest st2
        (⟨r.1.success + 1, r.1.failed, r.1.rateLimited⟩, r.2)

/-- The JSON body of the POST /api/summarize response: either the
empty-backlog message \x7bmessage, count: 0\x7d or the batch totals
\x7bmessage, success, failed, rateLimited\x7d. -/
inductive SummarizeResponse where
  | noWork (count : Nat)
  | batch (totals : BatchTotals)
deriving DecidableEq, Repr

/-- One invocation of the summarize batch operation: select, then process;
returns the response and the updated store. -/
def runBatch (gen : Gen) (sc : BatchScope) (st : List Commit) :
    SummarizeResponse × List Commit :=
  let sel := selectBatch sc st
  if sel.isEmpty then (.noWork 0, st)
  else
    let r := processCommits gen sel st
    (.batch r.1, r.2)

/-! ## Derived views of the engine used by the theorems -/

/-- The status of the row with the given id, read back from the store. -/
def statusOf (st : List Commit) (i : String) : Option SummaryStatus :=
  (st.find? (fun d => d.id == i)).map (fun d => d.summaryStatus)

/-- The summary field of the row with the given id. -/
def summaryOf (st : List Commit) (i : String) : Option (Option String) :=
  (st.find? (fun d => d.id == i)).map (fun d => d.summary)

/-- Whether the generator outcome for c is classified as a rate limit. -/
def hitsRL (gen : Gen) (c : Commit) : Bool :=
  match gen c with
  | .ok t => isRateLimited t
  | .error _ => false

/-- Whether the generator outcome for c is a successfully stored text. -/
def hitsOk (gen : Gen) (c : Commit) : Bool :=
  match gen c with
  | .ok t => !isRateLimited t
  | .error _ => false

/-- Whether the generator outcome for c is a thrown error. -/
def hitsErr (gen : Gen) (c : Commit) : Bool :=
  match gen c with
  | .ok _ => false
  | .error _ => true

/-- The cumulative effect of the per-commit loop on a single row. -/
def procUpd (gen : Gen) : List Commit → Commit → Commit
  | [], d => d
  | c :: rest, d =>
    match gen c with
    | .error _ => procUpd gen rest (updStatus c.id .FAILED (updStatus c.id .PROCESSING d))
    | .ok txt =>
      if isRateLimited txt then updStatus c.id .PENDING (updStatus c.id .PROCESSING d)
      else procUpd gen rest (updDone c.id txt (updStatus c.id .PROCESSING d))

/-- The totals of a batch, which depend only on the generator outcomes of
the selected commits, not on the store. -/
def batchTotals (gen : Gen) : List Commit → BatchTotals
  | [] => ⟨0, 0, false⟩
  | c :: rest =>
    match gen c with
    | .error _ =>
      let t := batchTotals gen rest
      ⟨t.success, t.failed + 1, t.rateLimited⟩
    | .ok txt =>
      if isRateLimited txt then ⟨0, 0, true⟩
      else
        let t := batchTotals gen rest
        ⟨t.success + 1, t.failed, t.rateLimited⟩

/-! ## Report compiler (src/app/api/export/route.ts, POST)

The export filter, the merge-commit heuristic, the message cleaning, the
file-history construction, and the serialization/persistence sequence.
The workbook is modelled by its content (the file-summary mapping and the
commit rows, newest first); styling is immaterial.  The store is taken in
the query order of the export (commit date ascending). -/

/-- The parsed body of the export request. -/
structure ExportFilter where
  startDate : Option DateTime
  endDate : Option DateTime
  authorEmail : Option String
  authorEmails : Option (List String)
  repoIds : Option (List String)
deriving DecidableEq, Repr

/-- The where-clause of the export query: multiple authors (in-list) if
provided and non-empty, else the legacy single author (substring
contains), plus date bounds and a repository id list. -/
def matchesFilter (fl : ExportFilter) (c : Commit) : Bool :=
  (match fl.authorEmails with
   | some es =>
     if es.isEmpty then
       (match fl.authorEmail with
        | some a => strIncludes c.authorEmail a
        | none => true)
     else es.contains c.authorEmail
   | none =>
     (match fl.authorEmail with
      | some a => strIncludes c.authorEmail a
      | none => true)) &&
  (match fl.startDate with
   | some s => dateLE s c.commitDate
   | none => true) &&
  (match fl.endDate with
   | some e => dateLE c.commitDate e
   | none => true) &&
  (match fl.repoIds with
   | some rs => if rs.isEmpty then true else rs.contains c.repositoryId
   | none => true)

/-- The merge-commit heuristic of the export route. -/
def isMergeCommit (message : String) : Bool :=
  let lowerMsg := strToLower message
  strStarts lowerMsg "merge commit" ||
  strStarts lowerMsg "merge pull request" ||
  strStarts lowerMsg "merge branch" ||
  strStarts lowerMsg "merge remote-tracking"

/-- The noise token removed by cleanMessage, lowered for the
case-insensitive global regex replace. -/
def noiseChars : List Char := "ayay sir".data

/-- Scanner of the noise-token removal; the counter skips the remaining
characters of a recognized occurrence. -/
def stripNoiseAux : Nat → List Char → List Char
  | _, [] => []
  | skip + 1, _ :: cs => stripNoiseAux skip cs
  | 0, c :: cs =>
    if listIsPre noiseChars ((c :: cs).map Char.toLower) then stripNoiseAux 7 cs
    else c :: stripNoiseAux 0 cs

/-- Removal of every (case-insensitive, left-to-right, non-overlapping)
occurrence of the noise token, as the /Ayay sir/gi replace does. -/
def stripNoise (l : List Char) : List Char := stripNoiseAux 0 l

/-- Whitespace class of the /\s+/g collapse (ASCII whitespace). -/
def isWsChar (c : Char) : Bool :=
  c = ' ' || c = '\t' || c = '\n' || c = '\r' || c = '\x0b' || c = '\x0c'

/-- Newline class of the /\n+/g collapse. -/
def isNlChar (c : Char) : Bool := c = '\n'

/-- Replaces every maximal run of target characters by one replacement
character; the flag records whether the current position is inside a run. -/
def collapseAux (isT : Char → Bool) (rep : Char) : Bool → List Char → List Char
  | _, [] => []
  | inRun, c :: cs =>
    if isT c then
      if inRun then collapseAux isT rep true cs
      else rep :: collapseAux isT rep true cs
    else c :: collapseAux isT rep false cs

/-- Run collapse starting outside a run. -/
def collapseRuns (isT : Char → Bool) (rep : Char) (l : List Char) : List Char :=
  collapseAux isT rep false l

/-- JS String.trim: drop whitespace from both ends. -/
def trimChars (l : List Char) : List Char :=
  ((l.dropWhile isWsChar).reverse.dropWhile isWsChar).reverse

/-- The cleanMessage helper of the export route: strip the noise token,
replace newline runs by spaces, collapse whitespace runs, and trim. -/
def cleanMessage (message : String) : String :=
  ⟨trimChars (collapseRuns isWsChar ' ' (collapseRuns isNlChar ' ' (stripNoise message.data)))⟩

/-- The message the file-summary loop reads:
commit.message or commit.messageTitle or the empty string (JS falsy
fallback on empty strings). -/
def rawMessage (c : Commit) : String :=
  if c.message ≠ "" then c.message
  else if c.messageTitle ≠ "" then c.messageTitle
  else ""

/-- JS split on a single newline. -/
def splitLines : List Char → List (List Char)
  | [] => [[]]
  | c :: cs =>
    if c = '\n' then [] :: splitLines cs
    else
      match splitLines cs with
      | [] => [[c]]
      | l :: ls => (c :: l) :: ls

/-- The changed-path list of a commit:
changedPaths.split of newline, filtered by Boolean (non-empty). -/
def splitPaths (s : String) : List String :=
  ((splitLines s.data).map (fun l => (⟨l⟩ : String))).filter (fun x => x ≠ "")

/-- Two-digit zero padding of the dd and MM date fields. -/
def pad2 (n : Nat) : String :=
  if n < 10 then "0" ++ toString n else toString n

/-- Four-digit zero padding of the yyyy date field. -/
def pad4 (n : Nat) : String :=
  if n < 10 then "000" ++ toString n
  else if n < 100 then "00" ++ toString n
  else if n < 1000 then "0" ++ toString n
  else toString n

/-- The date-fns format string dd/MM/yyyy applied to a commit date. -/
def fmtDate (t : DateTime) : String :=
  pad2 t.day ++ "/" ++ pad2 t.month ++ "/" ++ pad4 t.year

/-- One date bucket of a file history entry: the formatted date and the
accumulated change-description lines. -/
abbrev DateBucket := String × List String

/-- The file-history mapping, in insertion order (JS Map semantics):
file path to its ordered date buckets. -/
abbrev FileHist := List (String × List DateBucket)

/-- Appends a change line to the bucket of the given date (the first
bucket with that date, as Array.find does), or appends a new bucket. -/
def pushLine (d line : String) : List DateBucket → List DateBucket
  | [] => [(d, [line])]
  | (d0, ls) :: rest =>
    if d0 = d then (d0, ls ++ [line]) :: rest
    else (d0, ls) :: pushLine d line rest

/-- Adds a change line under a file path for a date, creating the file
entry at the end of the map when absent. -/
def addToFile (f d line : String) : FileHist → FileHist
  | [] => [(f, [(d, [line])])]
  | (f0, hist) :: rest =>
    if f0 = f then (f0, pushLine d line hist) :: rest
    else (f0, hist) :: addToFile f d line rest

/-- Looks up the history of a file path. -/
def fhFind (f : String) : FileHist → Option (List DateBucket)
  | [] => none
  | (f0, hist) :: rest => if f0 = f then some hist else fhFind f rest

/-- The body of the file-summary loop for one commit: skip commits
without changed paths, skip merge commits, skip commits whose cleaned
message is empty, and otherwise add the line to every changed file under
the formatted commit date. -/
def applyCommit (fh : FileHist) (c : Commit) : FileHist :=
  if c.changedPaths = "" then fh
  else
    let raw := rawMessage c
    if isMergeCommit raw then fh
    else
      let changeDesc := cleanMessage raw
      if changeDesc = "" then fh
      else
        let files := splitPaths c.changedPaths
        let commitDate := fmtDate c.commitDate
        files.foldl (fun acc f => addToFile f commitDate ("- " ++ changeDesc) acc) fh

/-- The file-history construction over the matched commits, oldest first
(the export query returns them in ascending commit-date order). -/
def buildFileHistory (commits : List Commit) : FileHist :=
  commits.foldl applyCommit []

/-- The content of the generated workbook: the file-summary mapping and
the commit rows of the Git Commits sheet (newest first). -/
structure Workbook where
  fileSummary : FileHist
  commitRows : List Commit
deriving DecidableEq, Repr

/-- Builds the workbook content from the ascending matched commits. -/
def buildWorkbook (commits : List Commit) : Workbook :=
  ⟨buildFileHistory commits, commits.reverse⟩

/-- The persisted ExportJob audit record. -/
structure ExportJobRec where
  status : String
  fileName : String
  fileSize : Nat
  rowCount : Nat
deriving DecidableEq, Repr

/-- The successful response of the export route: the attachment file name
and the row count recorded for it. -/
inductive ExportOutcome where
  | file (fileName : String) (rowCount : Nat)
deriving DecidableEq, Repr

/-- One invocation of the export route.  dbOk, ser, wr and cr are the
outcomes of the awaited external steps (the commit query, the xlsx
serialization, the file write, and the exportJob.create); the catch
clause maps any of their errors to a single error response, leaving the
persisted jobs unchanged. -/
def compileExport (fl : ExportFilter) (store : List Commit)
    (dbOk : Except String Unit) (ser : Workbook → Except String Nat)
    (wr : Except String Unit) (cr : Except String Unit)
    (fileName : String) (jobs : List ExportJobRec) :
    Except String ExportOutcome × List ExportJobRec :=
  match dbOk with
  | .error e => (.error e, jobs)
  | .ok _ =>
    let commits := store.filter (matchesFilter fl)
    let wb := buildWorkbook commits
    match ser wb with
    | .error e => (.error e, jobs)
    | .ok size =>
      match wr with
      | .error e => (.error e, jobs)
      | .ok _ =>
        match cr with
        | .error e => (.error e, jobs)
        | .ok _ =>
          (.ok (.file fileName commits.length),
           jobs ++ [⟨"COMPLETED", fileName, size, commits.length⟩])

/-! ## Progress-report narrative (lib/ai.ts) -/

/-- The aggregate input of generateProgressReport. -/
structure ProgressReportInput where
  authorNames : List String
  rangeStart : String
  rangeEnd : String
  repositories : List String
  commitMessages : List String
  totalCommits : Nat
  totalFilesChanged : Nat
deriving DecidableEq, Repr

/-- Scanner of the JS Set-based deduplication, carrying the elements
already emitted. -/
def jsDedupAux (seen : List String) : List String → List String
  | [] => []
  | x :: xs =>
    if seen.contains x then jsDedupAux seen xs
    else x :: jsDedupAux (x :: seen) xs

/-- JS Set-based deduplication: keeps the first occurrence of each
element, in order. -/
def jsDedup (l : List String) : List String := jsDedupAux [] l

/-- The authors field of the local summary: the joined author list, or
Unknown when empty. -/
def authorsStr (input : ProgressReportInput) : String :=
  if input.authorNames.isEmpty then "Unknown"
  else String.intercalate ", " input.authorNames

/-- The repositories field of the local summary. -/
def reposStr (input : ProgressReportInput) : String :=
  if input.repositories.isEmpty then "N/A"
  else String.intercalate ", " input.repositories

/-- One sample line of the local summary: the message capped at 180
characters with an ellipsis when longer. -/
def sampleLine (msg : String) : String :=
  "- " ++ (⟨msg.data.take 180⟩ : String) ++ (if 180 < msg.data.length then "..." else "")

/-- The Highlights block of the local summary: deduplicated non-empty
non-merge messages, first 8, joined by newlines; a fixed fallback line
when the join is empty. -/
def sampleMessagesOf (ms : List String) : String :=
  let lines := ((((jsDedup ms).filter (fun m => m ≠ "")).filter
    (fun m => !(strStarts (strToLower m) "merge "))).take 8).map sampleLine
  let joined := String.intercalate "\n" lines
  if joined = "" then "- No commit samples available" else joined

/-- The deterministic local fallback summary of lib/ai.ts,
buildLocalSummary. -/
def buildLocalSummary (input : ProgressReportInput) (reason : String) : String :=
  "Development Progress Report\n" ++
  (input.rangeStart ++ (" - " ++ (input.rangeEnd ++
  ("\n\nOverview:\n" ++
  (("- Authors: " ++ authorsStr input) ++ ("\n" ++
  (("- Repositories: " ++ reposStr input) ++ ("\n" ++
  (("- Total commits: " ++ (toString input.totalCommits ++ "\n")) ++
  (("- Files changed: " ++ (toString input.totalFilesChanged ++ "\n")) ++
  (("\nHighlights (sample commits):\n" ++ sampleMessagesOf input.commitMessages) ++
  ("\n\nNotes:\n- AI summary unavailable (" ++
   (reason ++ "). This is a local fallback summary.")))))))))))))

/-- Outcome of the narrative generator call: the API key is unset, the
response is a 429 / RESOURCE_EXHAUSTED, another non-ok response, a thrown
fetch error, or a 200 whose candidate text is the given string (the empty
string models an absent candidate). -/
inductive GenOutcome where
  | noApiKey
  | httpRateLimited
  | httpError
  | ok (text : String)
  | exn
deriving DecidableEq, Repr

/-- generateProgressReport of lib/ai.ts: the AI text on a non-empty 200
candidate, the local fallback (with the matching reason) otherwise. -/
def generateProgressReport (outcome : GenOutcome) (input : ProgressReportInput) : String :=
  match outcome with
  | .noApiKey => buildLocalSummary input "GEMINI_API_KEY not configured"
  | .httpRateLimited => buildLocalSummary input "Gemini API rate limited"
  | .httpError => buildLocalSummary input "Gemini API error"
  | .exn => buildLocalSummary input "Request failed"
  | .ok t => if t = "" then buildLocalSummary input "Empty AI response" else t

/-! ## Commit store upsert -/

/-- Modelled from the spec: the commit-storing step of the external
extraction service (rust-service, STEP 3: STORING, whose source is not
among the embedded files): for each commit, check whether a row with the
same (repositoryId, sha) already exists, skip it as a duplicate if so,
and insert it otherwise, reporting whether an insert happened. -/
def upsertCommit (st : List Commit) (c : Commit) : Bool × List Commit :=
  if st.any (fun d => d.repositoryId == c.repositoryId && d.sha == c.sha) then (false, st)
  else (true, st ++ [c])

/-- Repeated ingestion: upsert each observed commit in order. -/
def upsertAll (st : List Commit) (cs : List Commit) : List Commit :=
  cs.foldl (fun a c => (upsertCommit a c).2) st

/-- The number of stored rows with the given (repositoryId, sha) pair. -/
def pairCount (st : List Commit) (r s : String) : Nat :=
  st.countP (fun d => d.repositoryId == r && d.sha == s)

/-- The caller drain loop: run batches (each with its own generator
outcomes), stopping on the empty-backlog response, on rateLimited=true,
or on zero processed commits; the fuel argument bounds the iterations. -/
def drainLoop (gens : Nat → Gen) (sc : BatchScope) :
    Nat → Nat → List Commit → Option (SummarizeResponse × List Commit)
  | 0, _, _ => none
  | fuel + 1, k, st =>
    let r := runBatch (gens k) sc st
    match r.1 with
    | .noWork n => some (.noWork n, r.2)
    | .batch t =>
      if t.rateLimited || t.success + t.failed == 0 then some (.batch t, r.2)
      else drainLoop gens sc fuel (k + 1) r.2

/-- The invariant that no COMPLETED row stores a summary containing the
rate-limit sentinel. -/
def NoRLCompleted (st : List Commit) : Prop :=
  ∀ d ∈ st, d.summaryStatus = .COMPLETED →
    ∀ s, d.summary = some s → strIncludes s rlMark = false

/-! ## Sample rows used by witnesses and counterexamples -/

/-- Sample PENDING commit, the newer of the two-row store. -/
def cNew : Commit :=
  ⟨"c-new", "r1", "sha-new", "Alice", "a@x.com", ⟨2024, 1, 6, 10⟩,
   "feat y", "feat y", "src/x.ts", 1, none, .PENDING⟩

/-- Sample PENDING commit, the older of the two-row store. -/
def cOld : Commit :=
  ⟨"c-old", "r1", "sha-old", "Bob", "b@y.com", ⟨2024, 1, 5, 0⟩,
   "fix x bug", "fix x bug", "src/x.ts", 1, none, .PENDING⟩

/-- Sample FAILED commit. -/
def cFailed : Commit :=
  ⟨"c-fail", "r1", "sha-fail", "Alice", "a@x.com", ⟨2024, 1, 4, 0⟩,
   "broken", "broken", "src/y.ts", 1, none, .FAILED⟩

/-- Scope with no commitIds and no repoId restriction. -/
def scAll : BatchScope := ⟨none, none⟩

/-- Sample PENDING commit on the same calendar day as cOld. -/
def cOld2 : Commit :=
  ⟨"c-old2", "r1", "sha-old2", "Alice", "a@x.com", ⟨2024, 1, 5, 50⟩,
   "feat y", "feat y", "src/x.ts", 1, none, .PENDING⟩

/-- Sample merge commit that lists changed paths. -/
def cMerge : Commit :=
  ⟨"c-merge", "r1", "sha-m", "Bob", "b@y.com", ⟨2024, 1, 5, 60⟩,
   "Merge branch main into dev", "Merge branch main", "src/x.ts", 1, none, .PENDING⟩

/-- The export filter with no restrictions. -/
def flNone : ExportFilter := ⟨none, none, none, none, none⟩

/-- Serialization oracle that succeeds with a fixed byte size. -/
def serOk : Workbook → Except String Nat := fun _ => .ok 1024

/-- Serialization oracle that throws. -/
def serFail : Workbook → Except String Nat := fun _ => .error "serialization failed"

/-- Sample aggregate input of the progress report. -/
def sampleReport : ProgressReportInput :=
  ⟨["Alice", "Bob"], "2024-01-01", "2024-01-31", ["repo1"],
   ["feat y", "fix x bug"], 12, 34⟩

/-- Concrete generator that rate-limits the newer sample commit and
summarizes everything else. -/
def genRLNew : Gen := fun d =>
  if d.id = "c-new" then .ok "Rate limited - please retry later"
  else .ok "A concrete summary"

/-- Concrete generator that throws on the newer sample commit and
summarizes everything else. -/
def genErrNew : Gen := fun d =>
  if d.id = "c-new" then .error "boom" else .ok "A concrete summary"

/-- Concrete generator that summarizes every commit. -/
def genOkAll : Gen := fun _ => .ok "A concrete summary"

/-! ## Engine lemmas -/

theorem updStatus_id (i : String) (s : SummaryStatus) (c : Commit) :
    (updStatus i s c).id = c.id := by
  unfold updStatus; split <;> rfl

theorem updDone_id (i txt : String) (c : Commit) :
    (updDone i txt c).id = c.id := by
  unfold updDone; split <;> rfl

theorem updStatus_ne (i : String) (s : SummaryStatus) (c : Commit) (h : c.id ≠ i) :
    updStatus i s c = c := by
  unfold updStatus; simp [h]

theorem updDone_ne (i txt : String) (c : Commit) (h : c.id ≠ i) :
    updDone i txt c = c := by
  unfold updDone; simp [h]

theorem updStatus_self (i : String) (s : SummaryStatus) (c : Commit) (h : c.id = i) :
    updStatus i s c = { c with summaryStatus := s } := by
  unfold updStatus; simp [h]

theorem updDone_self (i txt : String) (c : Commit) (h : c.id = i) :
    updDone i txt c = { c with summary := some txt, summaryStatus := .COMPLETED } := by
  unfold updDone; simp [h]

theorem procUpd_nil (gen : Gen) (d : Commit) : procUpd gen [] d = d := rfl

theorem procUpd_cons_err (gen : Gen) (c : Commit) (rest : List Commit) (d : Commit)
    (e : String) (hg : gen c = .error e) :
    procUpd gen (c :: rest) d =
      procUpd gen rest (updStatus c.id .FAILED (updStatus c.id .PROCESSING d)) := by
  have h0 : procUpd gen (c :: rest) d =
      (match gen c with
       | .error _ => procUpd gen rest (updStatus c.id .FAILED (updStatus c.id .PROCESSING d))
       | .ok txt =>
         if isRateLimited txt then updStatus c.id .PENDING (updStatus c.id .PROCESSING d)
         else procUpd gen rest (updDone c.id txt (updStatus c.id .PROCESSING d))) := rfl
  rw [h0, hg]

theorem procUpd_cons_rl (gen : Gen) (c : Commit) (rest : List Commit) (d : Commit)
    (txt : String) (hg : gen c = .ok txt) (hrl : isRateLimited txt = true) :
    procUpd gen (c :: rest) d = updStatus c.id .PENDING (updStatus c.id .PROCESSING d) := by
  have h0 : procUpd gen (c :: rest) d =
      (match gen c with
       | .error _ => procUpd gen rest (updStatus c.id .FAILED (updStatus c.id .PROCESSING d))
       | .ok txt =>
         if isRateLimited txt then updStatus c.id .PENDING (updStatus c.id .PROCESSING d)
         else procUpd gen rest (updDone c.id txt (updStatus c.id .PROCESSING d))) := rfl
  rw [h0, hg]
  simp [hrl]

theorem procUpd_cons_ok (gen : Gen) (c : Commit) (rest : List Commit) (d : Commit)
    (txt : String) (hg : gen c = .ok txt) (hrl : isRateLimited txt = false) :
    procUpd gen (c :: rest) d =
      procUpd gen rest (updDone c.id txt (updStatus c.id .PROCESSING d)) := by
  have h0 : procUpd gen (c :: rest) d =
      (match gen c with
       | .error _ => procUpd gen rest (updStatus c.id .FAILED (updStatus c.id .PROCESSING d))
       | .ok txt =>
         if isRateLimited txt then updStatus c.id .PENDING (updStatus c.id .PROCESSING d)
         else procUpd gen rest (updDone c.id txt (updStatus c.id .PROCESSING d))) := rfl
  rw [h0, hg]
  simp [hrl]

theorem batchTotals_nil (gen : Gen) : batchTotals gen [] = ⟨0, 0, false⟩ := rfl

theorem batchTotals_cons_err (gen : Gen) (c : Commit) (rest : List Commit)
    (e : String) (hg : gen c = .error e) :
    batchTotals gen (c :: rest) =
      ⟨(batchTotals gen rest).success, (batchTotals gen rest).failed + 1,
       (batchTotals gen rest).rateLimited⟩ := by
  have h0 : batchTotals gen (c :: rest) =
      (match gen c with
       | .error _ =>
         ⟨(batchTotals gen rest).success, (batchTotals gen rest).failed + 1,
          (batchTotals gen rest).rateLimited⟩
       | .ok txt =>
         if isRateLimited txt then ⟨0, 0, true⟩
         else
           ⟨(batchTotals gen rest).success + 1, (batchTotals gen rest).failed,
            (batchTotals gen rest).rateLimited⟩) := rfl
  rw [h0, hg]

theorem batchTotals_cons_rl (gen : Gen) (c : Commit) (rest : List Commit)
    (txt : String) (hg : gen c = .ok txt) (hrl : isRateLimited txt = true) :
    batchTotals gen (c :: rest) = ⟨0, 0, true⟩ := by
  have h0 : batchTotals gen (c :: rest) =
      (match gen c with
       | .error _ =>
         ⟨(batchTotals gen rest).success, (batchTotals gen rest).failed + 1,
          (batchTotals gen rest).rateLimited⟩
       | .ok txt =>
         if isRateLimited txt then ⟨0, 0, true⟩
         else
           ⟨(batchTotals gen rest).success + 1, (batchTotals gen rest).failed,
            (batchTotals gen rest).rateLimited⟩) := rfl
  rw [h0, hg]
  simp [hrl]

theorem batchTotals_cons_ok (gen : Gen) (c : Commit) (rest : List Commit)
    (txt : String) (hg : gen c = .ok txt) (hrl : isRateLimited txt = false) :
    batchTotals gen (c :: rest) =
      ⟨(batchTotals gen rest).success + 1, (batchTotals gen rest).failed,
       (batchTotals gen rest).rateLimited⟩ := by
  have h0 : batchTotals gen (c :: rest) =
      (match gen c with
       | .error _ =>
         ⟨(batchTotals gen rest).success, (batchTotals gen rest).failed + 1,
          (batchTotals gen rest).rateLimited⟩
       | .ok txt =>
         if isRateLimited txt then ⟨0, 0, true⟩
         else
           ⟨(batchTotals gen rest).success + 1, (batchTotals gen rest).failed,
            (batchTotals gen rest).rateLimited⟩) := rfl
  rw [h0, hg]
  simp [hrl]

theorem procUpd_id (gen : Gen) (sel : List Commit) (d : Commit) :
    (procUpd gen sel d).id = d.id := by
  induction sel generalizing d with
  | nil => rfl
  | cons c rest ih =>
    cases hg : gen c with
    | error e => rw [procUpd_cons_err gen c rest d e hg, ih, updStatus_id, updStatus_id]
    | ok txt =>
      by_cases hrl : isRateLimited txt
      · rw [procUpd_cons_rl gen c rest d txt hg hrl, updStatus_id, updStatus_id]
      · rw [procUpd_cons_ok gen c rest d txt hg (by simpa using hrl), ih, updDone_id,
          updStatus_id]

theorem procUpd_not_mem (gen : Gen) (sel : List Commit) (d : Commit)
    (h : d.id ∉ sel.map (fun c => c.id)) :
    procUpd gen sel d = d := by
  induction sel generalizing d with
  | nil => rfl
  | cons c rest ih =>
    simp only [List.map_cons, List.mem_cons, not_or] at h
    cases hg : gen c with
    | error e =>
      rw [procUpd_cons_err gen c rest d e hg, updStatus_ne _ _ _ h.1,
        updStatus_ne _ _ _ h.1]
      exact ih d h.2
    | ok txt =>
      by_cases hrl : isRateLimited txt
      · rw [procUpd_cons_rl gen c rest d txt hg hrl, updStatus_ne _ _ _ h.1,
          updStatus_ne _ _ _ h.1]
      · rw [procUpd_cons_ok gen c rest d txt hg (by simpa using hrl),
          updStatus_ne _ _ _ h.1, updDone_ne _ _ _ h.1]
        exact ih d h.2

theorem processCommits_snd (gen : Gen) (sel : List Commit) (st : List Commit) :
    (processCommits gen sel st).2 = st.map (procUpd gen sel) := by
  induction sel generalizing st with
  | nil =>
    simp only [processCommits]
    rw [show st.map (procUpd gen []) = st.map id from
      List.map_congr_left (fun d _ => procUpd_nil gen d), List.map_id]
  | cons c rest ih =>
    unfold processCommits
    cases hg : gen c with
    | error e =>
      simp only [setRow]
      rw [ih]
      simp only [List.map_map]
      apply List.map_congr_left
      intro d _
      simp only [Function.comp]
      rw [procUpd_cons_err gen c rest d e hg]
    | ok txt =>
      by_cases hrl : isRateLimited txt
      · simp only [hrl, if_true, setRow, List.map_map]
        apply List.map_congr_left
        intro d _
        simp only [Function.comp]
        rw [procUpd_cons_rl gen c rest d txt hg hrl]
      · simp only [hrl, if_false, setRow]
        rw [ih]
        simp only [List.map_map]
        apply List.map_congr_left
        intro d _
        simp only [Function.comp]
        rw [procUpd_cons_ok gen c rest d txt hg (by simpa using hrl)]

theorem processCommits_fst (gen : Gen) (sel : List Commit) (st : List Commit) :
    (processCommits gen sel st).1 = batchTotals gen sel := by
  induction sel generalizing st with
  | nil => rfl
  | cons c rest ih =>
    unfold processCommits
    cases hg : gen c with
    | error e => rw [batchTotals_cons_err gen c rest e hg]; simp [ih]
    | ok txt =>
      by_cases hrl : isRateLimited txt
      · rw [batchTotals_cons_rl gen c rest txt hg hrl]; simp [hrl]
      · rw [batchTotals_cons_ok gen c rest txt hg (by simpa using hrl)]
        simp [hrl, ih]

theorem procUpd_append_noRL (gen : Gen) (l1 l2 : List Commit) (d : Commit)
    (h : ∀ e ∈ l1, hitsRL gen e = false) :
    procUpd gen (l1 ++ l2) d = procUpd gen l2 (procUpd gen l1 d) := by
  induction l1 generalizing d with
  | nil => rfl
  | cons c rest ih =>
    have hc : hitsRL gen c = false := h c (by simp)
    have hrest : ∀ e ∈ rest, hitsRL gen e = false := fun e he => h e (by simp [he])
    simp only [List.cons_append]
    cases hg : gen c with
    | error e =>
      rw [procUpd_cons_err gen c (rest ++ l2) d e hg, procUpd_cons_err gen c rest d e hg]
      exact ih _ hrest
    | ok txt =>
      have hrl : isRateLimited txt = false := by
        unfold hitsRL at hc; rw [hg] at hc; exact hc
      rw [procUpd_cons_ok gen c (rest ++ l2) d txt hg hrl,
        procUpd_cons_ok gen c rest d txt hg hrl]
      exact ih _ hrest

theorem batchTotals_append_noRL (gen : Gen) (l1 l2 : List Commit)
    (h : ∀ e ∈ l1, hitsRL gen e = false) :
    batchTotals gen (l1 ++ l2) =
      ⟨(batchTotals gen l2).success + l1.countP (hitsOk gen),
       (batchTotals gen l2).failed + l1.countP (hitsErr gen),
       (batchTotals gen l2).rateLimited⟩ := by
  induction l1 with
  | nil => simp [List.countP_nil]
  | cons c rest ih =>
    have hc : hitsRL gen c = false := h c (by simp)
    have hrest : ∀ e ∈ rest, hitsRL gen e = false := fun e he => h e (by simp [he])
    simp only [List.cons_append]
    cases hg : gen c with
    | error e =>
      rw [batchTotals_cons_err gen c (rest ++ l2) e hg, ih hrest]
      have hok : hitsOk gen c = false := by unfold hitsOk; rw [hg]
      have herr : hitsErr gen c = true := by unfold hitsErr; rw [hg]
      simp only [List.countP_cons, hok, herr, if_true, if_false]
      refine congrArg₂ _ rfl ?_
      constructor
    | ok txt =>
      have hrl : isRateLimited txt = false := by
        unfold hitsRL at hc; rw [hg] at hc; exact hc
      rw [batchTotals_cons_ok gen c (rest ++ l2) txt hg hrl, ih hrest]
      have hok : hitsOk gen c = true := by unfold hitsOk; rw [hg]; simp [hrl]
      have herr : hitsErr gen c = false := by unfold hitsErr; rw [hg]
      simp only [List.countP_cons, hok, herr, if_true, if_false]
      refine congrArg₂ _ ?_ rfl
      constructor

theorem batchTotals_rl_any (gen : Gen) (sel : List Commit) :
    (batchTotals gen sel).rateLimited = sel.any (hitsRL gen) := by
  induction sel with
  | nil => rfl
  | cons c rest ih =>
    cases hg : gen c with
    | error e =>
      have hc : hitsRL gen c = false := by unfold hitsRL; rw [hg]
      rw [batchTotals_cons_err gen c rest e hg]
      simp [List.any_cons, hc, ih]
    | ok txt =>
      by_cases hrl : isRateLimited txt
      · have hc : hitsRL gen c = true := by unfold hitsRL; rw [hg]; exact hrl
        rw [batchTotals_cons_rl gen c rest txt hg hrl]
        simp [List.any_cons, hc]
      · have hc : hitsRL gen c = false := by unfold hitsRL; rw [hg]; simpa using hrl
        rw [batchTotals_cons_ok gen c rest txt hg (by simpa using hrl)]
        simp [List.any_cons, hc, ih]

theorem find?_map_id_keep (st : List Commit) (U : Commit → Commit) (i : String)
    (hU : ∀ d, (U d).id = d.id) :
    (st.map U).find? (fun d => d.id == i) = (st.find? (fun d => d.id == i)).map U := by
  induction st with
  | nil => rfl
  | cons a st ih =>
    by_cases h : a.id = i
    · simp [List.find?_cons, hU, h]
    · simp [List.find?_cons, hU, h, ih]

theorem find?_eq_of_nodup_mem (st : List Commit) (c : Commit)
    (hnd : (st.map (fun d => d.id)).Nodup) (hc : c ∈ st) :
    st.find? (fun d => d.id == c.id) = some c := by
  induction st with
  | nil => simp at hc
  | cons a st ih =>
    simp only [List.map_cons, List.nodup_cons] at hnd
    rcases List.mem_cons.mp hc with rfl | hc2
    · simp [List.find?_cons]
    · have hne : a.id ≠ c.id := by
        intro h
        exact hnd.1 (h ▸ List.mem_map.mpr ⟨c, hc2, rfl⟩)
      simp [List.find?_cons, hne, ih hnd.2 hc2]

theorem statusOf_map (st : List Commit) (U : Commit → Commit) (c : Commit) (i : String)
    (hU : ∀ d, (U d).id = d.id)
    (hfind : st.find? (fun d => d.id == i) = some c) :
    statusOf (st.map U) i = some (U c).summaryStatus := by
  unfold statusOf
  rw [find?_map_id_keep st U i hU, hfind]
  rfl

theorem summaryOf_map (st : List Commit) (U : Commit → Commit) (c : Commit) (i : String)
    (hU : ∀ d, (U d).id = d.id)
    (hfind : st.find? (fun d => d.id == i) = some c) :
    summaryOf (st.map U) i = some (U c).summary := by
  unfold summaryOf
  rw [find?_map_id_keep st U i hU, hfind]
  rfl

/-! ## Selection lemmas -/

theorem selectBatch_sublist (sc : BatchScope) (st : List Commit) :
    List.Sublist (selectBatch sc st) st :=
  List.Sublist.trans (List.take_sublist 10 _) (List.filter_sublist st)

theorem mem_selectBatch_eligible (sc : BatchScope) (st : List Commit) (c : Commit)
    (h : c ∈ selectBatch sc st) : eligible sc c = true := by
  unfold selectBatch at h
  exact (List.mem_filter.mp (List.mem_of_mem_take h)).2

theorem selectBatch_ids_nodup (sc : BatchScope) (st : List Commit)
    (hnd : (st.map (fun d => d.id)).Nodup) :
    ((selectBatch sc st).map (fun d => d.id)).Nodup :=
  hnd.sublist ((selectBatch_sublist sc st).map (fun d => d.id))

theorem eligible_status (sc : BatchScope) (c : Commit) (h : eligible sc c = true) :
    c.summaryStatus = .PENDING := by
  unfold eligible at h
  simp only [Bool.and_eq_true, beq_iff_eq] at h
  exact h.1.1

/-- A PENDING row is unchanged by re-writing its status to PENDING
(record eta). -/
theorem updTo_pending_eta (c : Commit) (h : c.summaryStatus = .PENDING) :
    { c with summaryStatus := SummaryStatus.PENDING } = c := by
  cases c
  simp only at h
  simp [h]

/-- After a full pass with no rate limit, every selected commit ends in
FAILED or COMPLETED, hence is no longer eligible. -/
theorem procUpd_mem_noRL_status (gen : Gen) (sel : List Commit) (d : Commit)
    (hnd : (sel.map (fun c => c.id)).Nodup)
    (hno : ∀ e ∈ sel, hitsRL gen e = false) (hd : d ∈ sel) :
    (procUpd gen sel d).summaryStatus = .FAILED ∨
    (procUpd gen sel d).summaryStatus = .COMPLETED := by
  induction sel generalizing d with
  | nil => simp at hd
  | cons c rest ih =>
    simp only [List.map_cons, List.nodup_cons] at hnd
    rcases List.mem_cons.mp hd with rfl | hd2
    · have hdid : d.id ∉ rest.map (fun c => c.id) := hnd.1
      cases hg : gen d with
      | error e =>
        rw [procUpd_cons_err gen d rest d e hg,
          updStatus_self d.id .PROCESSING d rfl,
          updStatus_self d.id .FAILED _ (by simp),
          procUpd_not_mem gen rest _ (by simpa using hdid)]
        exact Or.inl rfl
      | ok txt =>
        have hrl : isRateLimited txt = false := by
          have := hno d (by simp)
          unfold hitsRL at this; rw [hg] at this; exact this
        rw [procUpd_cons_ok gen d rest d txt hg hrl,
          updStatus_self d.id .PROCESSING d rfl,
          updDone_self d.id txt _ (by simp),
          procUpd_not_mem gen rest _ (by simpa using hdid)]
        exact Or.inr rfl
    · have hne : d.id ≠ c.id := by
        intro h
        exact hnd.1 (h ▸ List.mem_map.mpr ⟨d, hd2, rfl⟩)
      have hrest : ∀ e ∈ rest, hitsRL gen e = false := fun e he => hno e (by simp [he])
      cases hg : gen c with
      | error e =>
        rw [procUpd_cons_err gen c rest d e hg, updStatus_ne _ _ _ hne,
          updStatus_ne _ _ _ hne]
        exact ih d hnd.2 hrest hd2
      | ok txt =>
        have hrl : isRateLimited txt = false := by
          have := hno c (by simp)
          unfold hitsRL at this; rw [hg] at this; exact this
        rw [procUpd_cons_ok gen c rest d txt hg hrl, updStatus_ne _ _ _ hne,
          updDone_ne _ _ _ hne]
        exact ih d hnd.2 hrest hd2

/-- Splitting a list at the first occurrence of an element is unique. -/
theorem append_cons_inj {α : Type} {x : α} :
    ∀ {a1 b1 a2 b2 : List α}, a1 ++ x :: a2 = b1 ++ x :: b2 →
      x ∉ a1 → x ∉ b1 → a1 = b1 ∧ a2 = b2 := by
  intro a1
  induction a1 with
  | nil =>
    intro b1 a2 b2 h hx1 hx2
    cases b1 with
    | nil => simpa using h
    | cons y b1 =>
      simp only [List.nil_append, List.cons_append, List.cons.injEq] at h
      exact (hx2 (by rw [h.1]; exact List.mem_cons_self y b1)).elim
  | cons a a1 ih =>
    intro b1 a2 b2 h hx1 hx2
    cases b1 with
    | nil =>
      simp only [List.cons_append, List.nil_append, List.cons.injEq] at h
      exact (hx1 (by rw [← h.1]; exact List.mem_cons_self a a1)).elim
    | cons y b1 =>
      simp only [List.cons_append, List.cons.injEq] at h
      have hx1' : x ∉ a1 := fun hm => hx1 (List.mem_cons_of_mem a hm)
      have hx2' : x ∉ b1 := fun hm => hx2 (List.mem_cons_of_mem y hm)
      obtain ⟨h1, h2⟩ := ih h.2 hx1' hx2'
      exact ⟨by rw [h.1, h1], h2⟩

/-- Counting with a pointwise-smaller predicate after a map: never larger,
and strictly smaller when one element flips. -/
theorem countP_map_lt (st : List Commit) (U : Commit → Commit) (p : Commit → Bool)
    (hmono : ∀ d ∈ st, p (U d) = true → p d = true)
    (hwit : ∃ d ∈ st, p d = true ∧ p (U d) = false) :
    (st.map U).countP p < st.countP p := by
  rw [List.countP_map]
  rcases hwit with ⟨d, hd, hpd, hpUd⟩
  obtain ⟨u, v, rfl⟩ := List.append_of_mem hd
  have hu : ∀ x ∈ u, (p ∘ U) x = true → p x = true :=
    fun x hx => hmono x (by simp [hx])
  have hv : ∀ x ∈ v, (p ∘ U) x = true → p x = true :=
    fun x hx => hmono x (by simp [hx])
  have h1 := List.countP_mono_left hu
  have h2 := List.countP_mono_left hv
  simp only [List.countP_append, List.countP_cons, Function.comp] at h1 h2 ⊢
  simp only [hpd, hpUd, if_true, Bool.false_eq_true, if_false]
  omega

/-- Ids of the store are untouched by a batch. -/
theorem runBatch_ids (gen : Gen) (sc : BatchScope) (st : List Commit) :
    (runBatch gen sc st).2.map (fun d => d.id) = st.map (fun d => d.id) := by
  unfold runBatch
  by_cases h : (selectBatch sc st).isEmpty
  · simp [h]
  · simp only [if_neg h]
    rw [processCommits_snd, List.map_map]
    apply List.map_congr_left
    intro d _
    simp only [Function.comp]
    exact procUpd_id gen _ d

/-- A non-rate-limited nonempty batch strictly shrinks the eligible set. -/
theorem runBatch_progress (gen : Gen) (sc : BatchScope) (st : List Commit)
    (hnd : (st.map (fun d => d.id)).Nodup)
    (hne : ¬ (selectBatch sc st).isEmpty)
    (hnorl : ∀ e ∈ selectBatch sc st, hitsRL gen e = false) :
    (runBatch gen sc st).2.countP (eligible sc) < st.countP (eligible sc) := by
  unfold runBatch
  simp only [if_neg hne]
  rw [processCommits_snd]
  set sel := selectBatch sc st with hsel
  have hselnd : (sel.map (fun d => d.id)).Nodup := selectBatch_ids_nodup sc st hnd
  apply countP_map_lt
  · intro d hd hUd
    by_cases hmem : d.id ∈ sel.map (fun c => c.id)
    · rcases List.mem_map.mp hmem with ⟨e, he, heid⟩
      have : d = e := by
        refine List.inj_on_of_nodup_map hnd hd ((selectBatch_sublist sc st).mem he) ?_
        simp [heid]
      subst this
      rcases procUpd_mem_noRL_status gen sel d hselnd hnorl he with hs | hs
      · have := eligible_status sc _ hUd
        rw [hs] at this
        exact absurd this (by simp)
      · have := eligible_status sc _ hUd
        rw [hs] at this
        exact absurd this (by simp)
    · rwa [procUpd_not_mem gen sel d hmem] at hUd
  · have hsel_ne : sel ≠ [] := by
      intro h
      exact hne (by simp [h])
    obtain ⟨c, hc⟩ := List.exists_mem_of_ne_nil sel hsel_ne
    refine ⟨c, (selectBatch_sublist sc st).mem hc, mem_selectBatch_eligible sc st c hc, ?_⟩
    rcases procUpd_mem_noRL_status gen sel c hselnd hnorl hc with hs | hs
    · unfold eligible
      simp [hs]
    · unfold eligible
      simp [hs]

theorem nodup_append_cons_facts {α : Type} {a b : List α} {x : α}
    (h : (a ++ x :: b).Nodup) :
    x ∉ a ∧ x ∉ b ∧ ∀ y ∈ a, y ∉ b := by
  rw [List.nodup_append] at h
  obtain ⟨ha, hb, hdisj⟩ := h
  refine ⟨fun hx => hdisj hx (List.mem_cons_self x b), ?_, ?_⟩
  · exact (List.nodup_cons.mp hb).1
  · intro y hy hyb
    exact hdisj hy (List.mem_cons_of_mem x hyb)

theorem runBatch_eq_noWork (gen : Gen) (sc : BatchScope) (st : List Commit)
    (h : (selectBatch sc st).isEmpty = true) :
    runBatch gen sc st = (.noWork 0, st) := by
  unfold runBatch
  rw [if_pos h]

theorem runBatch_eq_batch (gen : Gen) (sc : BatchScope) (st : List Commit)
    (h : ¬ (selectBatch sc st).isEmpty = true) :
    runBatch gen sc st =
      (.batch (batchTotals gen (selectBatch sc st)),
       st.map (procUpd gen (selectBatch sc st))) := by
  unfold runBatch
  rw [if_neg h]
  show (SummarizeResponse.batch (processCommits gen (selectBatch sc st) st).1,
        (processCommits gen (selectBatch sc st) st).2) = _
  rw [processCommits_fst, processCommits_snd]

/-! ## Claim C1 -/

/-- C1 counterexample: a store whose only commit has summaryStatus
FAILED.  The claim as stated says the batch selects up to 10 commits with
summaryStatus PENDING or FAILED, so here it would have to select that
commit; the code's where-clause is summaryStatus: PENDING only, selects
nothing, and answers the empty-backlog response, leaving the row FAILED. -/
theorem selection_skips_failed_cx :
    cFailed.summaryStatus = .FAILED ∧
    selectBatch scAll [cFailed] = [] ∧
    runBatch (fun _ => .ok "text") scAll [cFailed] = (.noWork 0, [cFailed]) := by
  refine ⟨rfl, by decide, by decide⟩

/-- C1 (amended): the summarization batch selects at most 10 commits, all
with summaryStatus PENDING (FAILED commits are never re-selected), newest
commit-date first over the date-descending store, restricted to the given
repository when a repoId scope is provided; an eligible commit is only
left unselected when the batch is already full. -/
theorem selection_pending_only_spec (sc : BatchScope) (st : List Commit)
    (hsort : st.Pairwise (fun a b => dateLE b.commitDate a.commitDate = true)) :
    (selectBatch sc st).length ≤ 10 ∧
    (∀ c ∈ selectBatch sc st, c.summaryStatus = .PENDING) ∧
    (∀ c ∈ selectBatch sc st, ∀ r, sc.repoId = some r → c.repositoryId = r) ∧
    (selectBatch sc st).Pairwise (fun a b => dateLE b.commitDate a.commitDate = true) ∧
    (∀ c ∈ st, eligible sc c = true → c ∉ selectBatch sc st →
      (selectBatch sc st).length = 10) := by
  refine ⟨?_, ?_, ?_, ?_, ?_⟩
  · unfold selectBatch
    rw [List.length_take]
    exact min_le_left _ _
  · intro c hc
    exact eligible_status sc c (mem_selectBatch_eligible sc st c hc)
  · intro c hc r hr
    have h := mem_selectBatch_eligible sc st c hc
    unfold eligible at h
    rw [hr] at h
    simp only [Bool.and_eq_true, beq_iff_eq] at h
    exact h.2
  · exact hsort.sublist (selectBatch_sublist sc st)
  · intro c hc helig hnot
    unfold selectBatch at hnot ⊢
    have hcf : c ∈ st.filter (eligible sc) := List.mem_filter.mpr ⟨hc, helig⟩
    by_cases hlen : (st.filter (eligible sc)).length ≤ 10
    · rw [List.take_of_length_le hlen] at hnot
      exact absurd hcf hnot
    · rw [List.length_take]
      omega

/-- C1 witness: the amended selection property evaluated on a concrete
two-row date-descending store. -/
theorem selection_pending_only_spec_witness :
    ([cNew, cOld].Pairwise (fun a b => dateLE b.commitDate a.commitDate = true)) ∧
    ((selectBatch scAll [cNew, cOld]).length ≤ 10 ∧
     (∀ c ∈ selectBatch scAll [cNew, cOld], c.summaryStatus = .PENDING) ∧
     (∀ c ∈ selectBatch scAll [cNew, cOld], ∀ r, scAll.repoId = some r → c.repositoryId = r) ∧
     (selectBatch scAll [cNew, cOld]).Pairwise
       (fun a b => dateLE b.commitDate a.commitDate = true) ∧
     (∀ c ∈ [cNew, cOld], eligible scAll c = true → c ∉ selectBatch scAll [cNew, cOld] →
       (selectBatch scAll [cNew, cOld]).length = 10)) :=
  ⟨by decide, selection_pending_only_spec scAll [cNew, cOld] (by decide)⟩

/-! ## Claim C2 -/

/-- C2: when a commit's summarization attempt returns a recognized
rate-limit signal (the first such commit of the batch, after a prefix
with no rate-limit outcome), the batch sets that commit back to PENDING
(not FAILED), processes no further commits of the batch (the statuses of
the remaining selected commits are untouched and only the prefix is
counted), returns rateLimited=true, and the commit is selected again by
the next runBatch call on the resulting store. -/
theorem rate_limit_requeue_spec (gen : Gen) (sc : BatchScope) (st : List Commit)
    (l1 l2 : List Commit) (c : Commit) (txt : String)
    (hnd : (st.map (fun d => d.id)).Nodup)
    (hsel : selectBatch sc st = l1 ++ c :: l2)
    (hl1 : ∀ e ∈ l1, hitsRL gen e = false)
    (hok : gen c = .ok txt)
    (hrl : isRateLimited txt = true) :
    statusOf (runBatch gen sc st).2 c.id = some .PENDING ∧
    (runBatch gen sc st).1 =
      .batch ⟨l1.countP (hitsOk gen), l1.countP (hitsErr gen), true⟩ ∧
    (∀ e ∈ l2, statusOf (runBatch gen sc st).2 e.id = statusOf st e.id) ∧
    c ∈ selectBatch sc (runBatch gen sc st).2 := by
  have hcsel : c ∈ selectBatch sc st := by rw [hsel]; simp
  have hcst : c ∈ st := (selectBatch_sublist sc st).subset hcsel
  have hselne : ¬ (selectBatch sc st).isEmpty = true := by
    rw [hsel]
    cases l1 <;> simp
  have helig : eligible sc c = true := mem_selectBatch_eligible sc st c hcsel
  have hceta : { c with summaryStatus := SummaryStatus.PENDING } = c :=
    updTo_pending_eta c (eligible_status sc c helig)
  -- id facts over the selection
  have hselnd : ((selectBatch sc st).map (fun d => d.id)).Nodup :=
    selectBatch_ids_nodup sc st hnd
  rw [hsel] at hselnd
  simp only [List.map_append, List.map_cons] at hselnd
  obtain ⟨hcl1, hcl2, hdisj⟩ := nodup_append_cons_facts hselnd
  have hl1nd : (l1.map (fun d => d.id)).Nodup := by
    rw [List.nodup_append] at hselnd
    exact hselnd.1
  -- the cumulative update of the batch on single rows
  have hUc : procUpd gen (selectBatch sc st) c = c := by
    rw [hsel, procUpd_append_noRL gen l1 (c :: l2) c hl1,
      procUpd_not_mem gen l1 c (by
        intro hmem
        exact hcl1 (by simpa using hmem)),
      procUpd_cons_rl gen c l2 c txt hok hrl]
    rw [updStatus_self c.id .PROCESSING c rfl]
    rw [updStatus_self c.id .PENDING
      { c with summaryStatus := SummaryStatus.PROCESSING } rfl]
    exact hceta
  have hUl2 : ∀ e ∈ l2, procUpd gen (selectBatch sc st) e = e := by
    intro e he
    have heid1 : e.id ∉ l1.map (fun d => d.id) := by
      intro hmem
      rcases List.mem_map.mp hmem with ⟨y, hy, hyid⟩
      exact hdisj y.id (List.mem_map.mpr ⟨y, hy, rfl⟩)
        (by rw [hyid]; exact List.mem_map.mpr ⟨e, he, rfl⟩)
    have heidc : e.id ≠ c.id := by
      intro hE
      exact hcl2 (hE ▸ List.mem_map.mpr ⟨e, he, rfl⟩)
    rw [hsel, procUpd_append_noRL gen l1 (c :: l2) e hl1,
      procUpd_not_mem gen l1 e heid1,
      procUpd_cons_rl gen c l2 e txt hok hrl,
      updStatus_ne _ _ _ heidc, updStatus_ne _ _ _ heidc]
  have hUl1 : ∀ d ∈ l1, (procUpd gen (selectBatch sc st) d).summaryStatus = .FAILED ∨
      (procUpd gen (selectBatch sc st) d).summaryStatus = .COMPLETED := by
    intro d hd
    have hdidc : d.id ≠ c.id := by
      intro hE
      exact hcl1 (hE ▸ List.mem_map.mpr ⟨d, hd, rfl⟩)
    have hd1id : (procUpd gen l1 d).id = d.id := procUpd_id gen l1 d
    have hid1 : (procUpd gen l1 d).id ≠ c.id := by rw [hd1id]; exact hdidc
    rw [hsel, procUpd_append_noRL gen l1 (c :: l2) d hl1,
      procUpd_cons_rl gen c l2 _ txt hok hrl,
      updStatus_ne c.id .PROCESSING (procUpd gen l1 d) hid1,
      updStatus_ne c.id .PENDING (procUpd gen l1 d) hid1]
    exact procUpd_mem_noRL_status gen l1 d hl1nd hl1 hd
  rw [runBatch_eq_batch gen sc st hselne]
  refine ⟨?_, ?_, ?_, ?_⟩
  · -- the commit ends PENDING
    rw [statusOf_map st _ c c.id (procUpd_id gen _)
      (find?_eq_of_nodup_mem st c hnd hcst), hUc]
    rw [eligible_status sc c helig]
  · -- totals: only the prefix counted, rateLimited=true
    rw [hsel, batchTotals_append_noRL gen l1 (c :: l2) hl1,
      batchTotals_cons_rl gen c l2 txt hok hrl]
    simp
  · -- the rest of the batch untouched
    intro e he
    have hest : e ∈ st := by
      refine (selectBatch_sublist sc st).subset ?_
      rw [hsel]
      simp [he]
    rw [statusOf_map st _ e e.id (procUpd_id gen _)
      (find?_eq_of_nodup_mem st e hnd hest), hUl2 e he]
    unfold statusOf
    rw [find?_eq_of_nodup_mem st e hnd hest]
    rfl
  · -- the commit is selected again by the next call
    obtain ⟨s1, s2, hst⟩ := List.append_of_mem hcst
    have hcns1 : c ∉ s1 := by
      intro hcs1
      have : (st.map (fun d => d.id)).Nodup := hnd
      rw [hst] at this
      simp only [List.map_append, List.map_cons] at this
      exact (nodup_append_cons_facts this).1 (List.mem_map.mpr ⟨c, hcs1, rfl⟩)
    have hF1 : st.filter (eligible sc) =
        s1.filter (eligible sc) ++ c :: s2.filter (eligible sc) := by
      rw [hst, List.filter_append, List.filter_cons_of_pos helig]
    have hF2 : st.filter (eligible sc) =
        l1 ++ c :: (l2 ++ (st.filter (eligible sc)).drop 10) := by
      conv_lhs => rw [← List.take_append_drop 10 (st.filter (eligible sc))]
      rw [show (st.filter (eligible sc)).take 10 = l1 ++ c :: l2 from hsel]
      simp
    have hcnf1 : c ∉ s1.filter (eligible sc) :=
      fun hm => hcns1 (List.mem_of_mem_filter hm)
    have hsplit := append_cons_inj (hF1.symm.trans hF2) hcnf1 (by
      intro hm
      exact hcl1 (List.mem_map.mpr ⟨c, hm, rfl⟩))
    have hfs1 : s1.filter (eligible sc) = l1 := hsplit.1
    -- every updated row of the s1 segment is ineligible afterwards
    have hs1bad : ∀ x ∈ s1.map (procUpd gen (selectBatch sc st)),
        ¬ eligible sc x = true := by
      intro x hx hex
      rcases List.mem_map.mp hx with ⟨d, hd, rfl⟩
      have hdst : d ∈ st := by rw [hst]; simp [hd]
      by_cases hmem : d.id ∈ (selectBatch sc st).map (fun e => e.id)
      · rcases List.mem_map.mp hmem with ⟨e, hesel, heid⟩
        have hde : d = e :=
          List.inj_on_of_nodup_map hnd hdst
            ((selectBatch_sublist sc st).subset hesel) (by rw [heid])
        subst hde
        rw [hsel] at hesel
        rcases List.mem_append.mp hesel with hdl1 | hdtail
        · rcases hUl1 d hdl1 with hs | hs
          · have := eligible_status sc _ hex
            rw [hs] at this
            cases this
          · have := eligible_status sc _ hex
            rw [hs] at this
            cases this
        · rcases List.mem_cons.mp hdtail with rfl | hdl2
          · exact hcns1 hd
          · rw [hUl2 d hdl2] at hex
            have : d ∈ s1.filter (eligible sc) := List.mem_filter.mpr ⟨hd, hex⟩
            rw [hfs1] at this
            exact hdisj d.id (List.mem_map.mpr ⟨d, this, rfl⟩)
              (List.mem_map.mpr ⟨d, hdl2, rfl⟩)
      · rw [procUpd_not_mem gen _ d hmem] at hex
        have : d ∈ s1.filter (eligible sc) := List.mem_filter.mpr ⟨hd, hex⟩
        rw [hfs1] at this
        exact hmem (by
          rw [hsel]
          simp only [List.map_append, List.map_cons]
          exact List.mem_append.mpr (Or.inl (List.mem_map.mpr ⟨d, this, rfl⟩)))
    -- the filtered updated store starts with c
    have hmap : st.map (procUpd gen (selectBatch sc st)) =
        s1.map (procUpd gen (selectBatch sc st)) ++
        c :: s2.map (procUpd gen (selectBatch sc st)) := by
      set U := procUpd gen (selectBatch sc st) with hU
      rw [hst, List.map_append, List.map_cons]
      rw [hUc]
    show c ∈ (List.filter (eligible sc)
      (st.map (procUpd gen (selectBatch sc st)))).take 10
    rw [hmap, List.filter_append,
      List.filter_eq_nil_iff.mpr (by
        intro x hx
        simpa using hs1bad x hx),
      List.filter_cons_of_pos helig, List.nil_append]
    rw [show (10 : Nat) = 9 + 1 from rfl, List.take_succ_cons]
    exact List.mem_cons_self c _

/-- C2 witness: the rate-limit requeue property on a concrete two-row
store whose newest commit is rate limited. -/
theorem rate_limit_requeue_spec_witness :
    (([cNew, cOld].map (fun d => d.id)).Nodup) ∧
    (selectBatch scAll [cNew, cOld] = [] ++ cNew :: [cOld]) ∧
    (genRLNew cNew = .ok "Rate limited - please retry later") ∧
    (isRateLimited "Rate limited - please retry later" = true) ∧
    (statusOf (runBatch genRLNew scAll [cNew, cOld]).2 cNew.id = some .PENDING ∧
     (runBatch genRLNew scAll [cNew, cOld]).1 =
       .batch ⟨List.countP (hitsOk genRLNew) [], List.countP (hitsErr genRLNew) [], true⟩ ∧
     (∀ e ∈ [cOld], statusOf (runBatch genRLNew scAll [cNew, cOld]).2 e.id =
       statusOf [cNew, cOld] e.id) ∧
     cNew ∈ selectBatch scAll (runBatch genRLNew scAll [cNew, cOld]).2) :=
  ⟨by decide, by decide, rfl, by decide,
   rate_limit_requeue_spec genRLNew scAll [cNew, cOld] [] [cOld] cNew
     "Rate limited - please retry later" (by decide) (by decide)
     (by intro e he; simp at he) rfl (by decide)⟩

/-! ## Claim C4 -/

/-- C4: a per-commit failure that is not a rate-limit signal (a thrown
error, here the first non-rate-limited failing commit of the batch) sets
that commit's summaryStatus to FAILED, and processing continues with the
remaining commits: the batch still returns a normal totals response (it
never surfaces the exception), whose counts are those of the prefix plus
one failure plus the totals the remaining commits produce on their own. -/
theorem failure_continue_spec (gen : Gen) (sc : BatchScope) (st : List Commit)
    (l1 l2 : List Commit) (c : Commit) (err : String)
    (hnd : (st.map (fun d => d.id)).Nodup)
    (hsel : selectBatch sc st = l1 ++ c :: l2)
    (hl1 : ∀ e ∈ l1, hitsRL gen e = false)
    (herr : gen c = .error err) :
    statusOf (runBatch gen sc st).2 c.id = some .FAILED ∧
    (runBatch gen sc st).1 = .batch (batchTotals gen (l1 ++ c :: l2)) ∧
    (batchTotals gen (l1 ++ c :: l2)).success =
      (batchTotals gen l2).success + l1.countP (hitsOk gen) ∧
    (batchTotals gen (l1 ++ c :: l2)).failed =
      (batchTotals gen l2).failed + 1 + l1.countP (hitsErr gen) ∧
    (batchTotals gen (l1 ++ c :: l2)).rateLimited = (batchTotals gen l2).rateLimited := by
  have hcsel : c ∈ selectBatch sc st := by rw [hsel]; simp
  have hcst : c ∈ st := (selectBatch_sublist sc st).subset hcsel
  have hselne : ¬ (selectBatch sc st).isEmpty = true := by
    rw [hsel]
    cases l1 <;> simp
  have hselnd : ((selectBatch sc st).map (fun d => d.id)).Nodup :=
    selectBatch_ids_nodup sc st hnd
  rw [hsel] at hselnd
  simp only [List.map_append, List.map_cons] at hselnd
  obtain ⟨hcl1, hcl2, hdisj⟩ := nodup_append_cons_facts hselnd
  have hUc : procUpd gen (selectBatch sc st) c =
      { c with summaryStatus := SummaryStatus.FAILED } := by
    rw [hsel, procUpd_append_noRL gen l1 (c :: l2) c hl1,
      procUpd_not_mem gen l1 c (by
        intro hmem
        exact hcl1 (by simpa using hmem)),
      procUpd_cons_err gen c l2 c err herr]
    rw [updStatus_self c.id .PROCESSING c rfl]
    rw [updStatus_self c.id .FAILED
      { c with summaryStatus := SummaryStatus.PROCESSING } rfl]
    rw [procUpd_not_mem gen l2 _ (by
      intro hmem
      exact hcl2 (by simpa using hmem))]
  rw [runBatch_eq_batch gen sc st hselne]
  have htot : batchTotals gen (l1 ++ c :: l2) =
      ⟨(batchTotals gen l2).success + l1.countP (hitsOk gen),
       (batchTotals gen l2).failed + 1 + l1.countP (hitsErr gen),
       (batchTotals gen l2).rateLimited⟩ := by
    rw [batchTotals_append_noRL gen l1 (c :: l2) hl1,
      batchTotals_cons_err gen c l2 err herr]
  refine ⟨?_, ?_, ?_, ?_, ?_⟩
  · rw [statusOf_map st _ c c.id (procUpd_id gen _)
      (find?_eq_of_nodup_mem st c hnd hcst), hUc]
  · rw [hsel]
  · rw [htot]
  · rw [htot]
  · rw [htot]

/-- C4 witness: the failure-continues property on a concrete two-row
store whose newest commit throws. -/
theorem failure_continue_spec_witness :
    (([cNew, cOld].map (fun d => d.id)).Nodup) ∧
    (selectBatch scAll [cNew, cOld] = [] ++ cNew :: [cOld]) ∧
    (genErrNew cNew = .error "boom") ∧
    (statusOf (runBatch genErrNew scAll [cNew, cOld]).2 cNew.id = some .FAILED ∧
     (runBatch genErrNew scAll [cNew, cOld]).1 =
       .batch (batchTotals genErrNew ([] ++ cNew :: [cOld])) ∧
     (batchTotals genErrNew ([] ++ cNew :: [cOld])).success =
       (batchTotals genErrNew [cOld]).success + List.countP (hitsOk genErrNew) [] ∧
     (batchTotals genErrNew ([] ++ cNew :: [cOld])).failed =
       (batchTotals genErrNew [cOld]).failed + 1 + List.countP (hitsErr genErrNew) [] ∧
     (batchTotals genErrNew ([] ++ cNew :: [cOld])).rateLimited =
       (batchTotals genErrNew [cOld]).rateLimited) :=
  ⟨by decide, by decide, rfl,
   failure_continue_spec genErrNew scAll [cNew, cOld] [] [cOld] cNew "boom"
     (by decide) (by decide) (by intro e he; simp at he) rfl⟩

/-! ## Claim C10 -/

theorem updStatus_noRL (i : String) (s : SummaryStatus) (d : Commit)
    (hs : s ≠ .COMPLETED)
    (hP : d.summaryStatus = .COMPLETED →
      ∀ t, d.summary = some t → strIncludes t rlMark = false) :
    (updStatus i s d).summaryStatus = .COMPLETED →
      ∀ t, (updStatus i s d).summary = some t → strIncludes t rlMark = false := by
  unfold updStatus
  split
  · intro hc
    exact absurd hc hs
  · exact hP

theorem updDone_noRL (i txt : String) (d : Commit)
    (hrl : isRateLimited txt = false)
    (hP : d.summaryStatus = .COMPLETED →
      ∀ t, d.summary = some t → strIncludes t rlMark = false) :
    (updDone i txt d).summaryStatus = .COMPLETED →
      ∀ t, (updDone i txt d).summary = some t → strIncludes t rlMark = false := by
  unfold updDone
  split
  · intro _ t ht
    simp only [Option.some.injEq] at ht
    rw [← ht]
    unfold isRateLimited at hrl
    exact hrl
  · exact hP

theorem procUpd_noRL_inv (gen : Gen) (sel : List Commit) (d : Commit)
    (hP : d.summaryStatus = .COMPLETED →
      ∀ t, d.summary = some t → strIncludes t rlMark = false) :
    (procUpd gen sel d).summaryStatus = .COMPLETED →
      ∀ t, (procUpd gen sel d).summary = some t → strIncludes t rlMark = false := by
  induction sel generalizing d with
  | nil => exact hP
  | cons c rest ih =>
    cases hg : gen c with
    | error e =>
      rw [procUpd_cons_err gen c rest d e hg]
      exact ih _ (updStatus_noRL _ _ _ (by simp)
        (updStatus_noRL _ _ _ (by simp) hP))
    | ok txt =>
      by_cases hrl : isRateLimited txt
      · rw [procUpd_cons_rl gen c rest d txt hg hrl]
        exact updStatus_noRL _ _ _ (by simp)
          (updStatus_noRL _ _ _ (by simp) hP)
      · rw [procUpd_cons_ok gen c rest d txt hg (by simpa using hrl)]
        exact ih _ (updDone_noRL _ _ _ (by simpa using hrl)
          (updStatus_noRL _ _ _ (by simp) hP))

/-- C10: the engine classifies a generator response as a rate-limit
signal exactly when the text contains the substring "Rate limited"; the
batch therefore preserves the invariant that no COMPLETED row stores a
summary containing that substring; and a genuine generated summary
containing the substring is silently requeued: the commit ends PENDING
with its stored summary unchanged instead of being stored COMPLETED. -/
theorem rl_sentinel_spec :
    (∀ t : String, isRateLimited t = true ↔
      ∃ pre post, t.data = pre ++ rlMark.data ++ post) ∧
    (∀ (gen : Gen) (sc : BatchScope) (st : List Commit),
      NoRLCompleted st → NoRLCompleted (runBatch gen sc st).2) ∧
    (∀ (gen : Gen) (sc : BatchScope) (st : List Commit) (c : Commit)
      (rest : List Commit) (txt : String),
      (st.map (fun d => d.id)).Nodup →
      selectBatch sc st = c :: rest →
      gen c = .ok txt →
      (∃ pre post, txt.data = pre ++ rlMark.data ++ post) →
      statusOf (runBatch gen sc st).2 c.id = some .PENDING ∧
      summaryOf (runBatch gen sc st).2 c.id = some c.summary) := by
  refine ⟨fun t => strIncludes_iff t rlMark, ?_, ?_⟩
  · intro gen sc st hinv
    by_cases hne : (selectBatch sc st).isEmpty = true
    · rw [runBatch_eq_noWork gen sc st hne]
      exact hinv
    · rw [runBatch_eq_batch gen sc st hne]
      intro d' hd'
      rcases List.mem_map.mp hd' with ⟨d, hd, rfl⟩
      exact procUpd_noRL_inv gen _ d (hinv d hd)
  · intro gen sc st c rest txt hnd hsel hok hsub
    have hrl : isRateLimited txt = true := (strIncludes_iff txt rlMark).mpr hsub
    have hcsel : c ∈ selectBatch sc st := by rw [hsel]; simp
    have hcst : c ∈ st := (selectBatch_sublist sc st).subset hcsel
    have hselne : ¬ (selectBatch sc st).isEmpty = true := by
      rw [hsel]; simp
    have helig : eligible sc c = true := mem_selectBatch_eligible sc st c hcsel
    have hceta : { c with summaryStatus := SummaryStatus.PENDING } = c :=
      updTo_pending_eta c (eligible_status sc c helig)
    have hUc : procUpd gen (selectBatch sc st) c = c := by
      rw [hsel, procUpd_cons_rl gen c rest c txt hok hrl]
      rw [updStatus_self c.id .PROCESSING c rfl]
      rw [updStatus_self c.id .PENDING
        { c with summaryStatus := SummaryStatus.PROCESSING } rfl]
      exact hceta
    rw [runBatch_eq_batch gen sc st hselne]
    constructor
    · rw [statusOf_map st _ c c.id (procUpd_id gen _)
        (find?_eq_of_nodup_mem st c hnd hcst), hUc]
      rw [eligible_status sc c helig]
    · rw [summaryOf_map st _ c c.id (procUpd_id gen _)
        (find?_eq_of_nodup_mem st c hnd hcst), hUc]

/-- C10 witness: the three parts evaluated at the concrete sentinel text,
a concrete invariant-satisfying store, and the concrete rate-limited
batch. -/
theorem rl_sentinel_spec_witness :
    (isRateLimited "Rate limited - please retry later" = true ↔
      ∃ pre post, ("Rate limited - please retry later").data =
        pre ++ rlMark.data ++ post) ∧
    (NoRLCompleted [cNew]) ∧
    (NoRLCompleted (runBatch genOkAll scAll [cNew]).2) ∧
    (statusOf (runBatch genRLNew scAll [cNew, cOld]).2 cNew.id = some .PENDING ∧
     summaryOf (runBatch genRLNew scAll [cNew, cOld]).2 cNew.id = some cNew.summary) := by
  have hinv : NoRLCompleted [cNew] := by
    intro d hd hc s hs
    simp only [List.mem_singleton] at hd
    rw [hd] at hs
    simp [cNew] at hs
  refine ⟨rl_sentinel_spec.1 "Rate limited - please retry later", hinv,
    rl_sentinel_spec.2.1 genOkAll scAll [cNew] hinv,
    rl_sentinel_spec.2.2 genRLNew scAll [cNew, cOld] cNew [cOld]
      "Rate limited - please retry later" (by decide) (by decide) rfl
      ⟨[], (" - please retry later").data, by decide⟩⟩

/-! ## Claim C5 -/

theorem drainLoop_succ (gens : Nat → Gen) (sc : BatchScope) (n k : Nat)
    (st : List Commit) :
    drainLoop gens sc (n + 1) k st =
      match (runBatch (gens k) sc st).1 with
      | .noWork m => some (.noWork m, (runBatch (gens k) sc st).2)
      | .batch t =>
        if t.rateLimited || t.success + t.failed == 0
        then some (.batch t, (runBatch (gens k) sc st).2)
        else drainLoop gens sc n (k + 1) (runBatch (gens k) sc st).2 := rfl

/-- C5 counterexample: with an empty (hence finite) backlog, every call
of the batch operation returns the empty-backlog response with the store
unchanged, which is the shape with message and count fields, not the
batch record; so no repetition of calls ever returns exactly
success=0, failed=0, rateLimited=false. -/
theorem drain_zero_triple_cx :
    runBatch genOkAll scAll [] = (.noWork 0, []) ∧
    SummarizeResponse.noWork 0 ≠ .batch ⟨0, 0, false⟩ :=
  ⟨by decide, by decide⟩

/-- C5 (amended): over a finite backlog with distinct row ids, the
caller's drain loop terminates: an empty selection yields the no-work
count-0 response (not a success/failed/rateLimited record) with the
store unchanged, and repeated batch calls reach a stopping response
(no-work, rate-limited, or zero processed) within pending-count-plus-one
iterations, because every non-stopping call strictly shrinks the set of
eligible commits. -/
theorem drain_terminates_spec :
    (∀ (gen : Gen) (sc : BatchScope) (st : List Commit),
      selectBatch sc st = [] → runBatch gen sc st = (.noWork 0, st)) ∧
    (∀ (gens : Nat → Gen) (sc : BatchScope) (st : List Commit) (k : Nat),
      (st.map (fun d => d.id)).Nodup →
      (drainLoop gens sc (st.countP (eligible sc) + 1) k st).isSome = true) := by
  constructor
  · intro gen sc st hsel
    exact runBatch_eq_noWork gen sc st (by rw [hsel]; rfl)
  · have main : ∀ (fuel : Nat) (gens : Nat → Gen) (sc : BatchScope)
        (st : List Commit) (k : Nat),
        st.countP (eligible sc) < fuel →
        (st.map (fun d => d.id)).Nodup →
        (drainLoop gens sc fuel k st).isSome = true := by
      intro fuel
      induction fuel with
      | zero =>
        intro gens sc st k hlt hnd
        omega
      | succ n ih =>
        intro gens sc st k hlt hnd
        by_cases hne : (selectBatch sc st).isEmpty = true
        · rw [drainLoop_succ, runBatch_eq_noWork (gens k) sc st hne]
          rfl
        · rw [drainLoop_succ]
          cases hr : (runBatch (gens k) sc st).1 with
          | noWork m => simp
          | batch t =>
            by_cases hstop : (t.rateLimited || t.success + t.failed == 0) = true
            · simp [hstop]
            · simp only [hstop, if_false, Bool.false_eq_true]
              have ht : t = batchTotals (gens k) (selectBatch sc st) := by
                rw [runBatch_eq_batch (gens k) sc st hne] at hr
                have := hr
                simp only at this
                exact (SummarizeResponse.batch.inj this).symm
              have hrlf : t.rateLimited = false := by
                have hor : (t.rateLimited || t.success + t.failed == 0) = false :=
                  Bool.eq_false_iff.mpr hstop
                exact (Bool.or_eq_false_iff.mp hor).1
              have hnorl : ∀ e ∈ selectBatch sc st, hitsRL (gens k) e = false := by
                intro e he
                have hany : (selectBatch sc st).any (hitsRL (gens k)) = false := by
                  rw [← batchTotals_rl_any (gens k) (selectBatch sc st), ← ht]
                  exact hrlf
                rw [List.any_eq_false] at hany
                exact Bool.eq_false_iff.mpr (hany e he)
              have hprog := runBatch_progress (gens k) sc st hnd hne hnorl
              have hnd2 : ((runBatch (gens k) sc st).2.map (fun d => d.id)).Nodup := by
                rw [runBatch_ids (gens k) sc st]
                exact hnd
              exact ih gens sc (runBatch (gens k) sc st).2 (k + 1)
                (by omega) hnd2
    intro gens sc st k hnd
    exact main (st.countP (eligible sc) + 1) gens sc st k (by omega) hnd

/-- C5 witness: the amended drain property evaluated on a concrete
two-row backlog. -/
theorem drain_terminates_spec_witness :
    (selectBatch scAll [] = [] ∧ runBatch genOkAll scAll [] = (.noWork 0, [])) ∧
    (([cNew, cOld].map (fun d => d.id)).Nodup ∧
     (drainLoop (fun _ => genOkAll) scAll
       ([cNew, cOld].countP (eligible scAll) + 1) 0 [cNew, cOld]).isSome = true) :=
  ⟨⟨by decide, drain_terminates_spec.1 genOkAll scAll [] (by decide)⟩,
   ⟨by decide, drain_terminates_spec.2 (fun _ => genOkAll) scAll [cNew, cOld] 0 (by decide)⟩⟩

/-! ## Claim C3 -/

theorem addToFile_find_ne (g f d line : String) (fh : FileHist) (hne : g ≠ f) :
    fhFind f (addToFile g d line fh) = fhFind f fh := by
  induction fh with
  | nil => simp [addToFile, fhFind, hne]
  | cons e rest ih =>
    obtain ⟨f0, hist⟩ := e
    by_cases h0 : f0 = g
    · subst h0
      simp [addToFile, fhFind, hne]
    · by_cases h1 : f0 = f
      · subst h1
        simp [addToFile, fhFind, h0]
      · simp [addToFile, fhFind, h0, h1, ih]

theorem addToFile_find_self (f d line : String) (fh : FileHist) :
    fhFind f (addToFile f d line fh) =
      some (pushLine d line ((fhFind f fh).getD [])) := by
  induction fh with
  | nil => simp [addToFile, fhFind, pushLine]
  | cons e rest ih =>
    obtain ⟨f0, hist⟩ := e
    by_cases h0 : f0 = f
    · subst h0
      simp [addToFile, fhFind]
    · simp [addToFile, fhFind, h0, ih]

theorem foldl_addToFile_not_mem (files : List String) (d line : String)
    (fh : FileHist) (f : String) (hf : f ∉ files) :
    fhFind f (files.foldl (fun acc g => addToFile g d line acc) fh) = fhFind f fh := by
  induction files generalizing fh with
  | nil => rfl
  | cons g rest ih =>
    simp only [List.mem_cons, not_or] at hf
    simp only [List.foldl_cons]
    rw [ih _ hf.2, addToFile_find_ne g f d line fh (fun h => hf.1 h.symm)]

theorem count_one_split {α : Type} [DecidableEq α] {l : List α} {x : α}
    (h : l.count x = 1) :
    ∃ p q, l = p ++ x :: q ∧ x ∉ p ∧ x ∉ q := by
  induction l with
  | nil => simp [List.count_nil] at h
  | cons a l ih =>
    by_cases ha : a = x
    · subst ha
      rw [List.count_cons_self] at h
      have h0 : l.count a = 0 := by omega
      exact ⟨[], l, rfl, by simp, List.count_eq_zero.mp h0⟩
    · rw [List.count_cons_of_ne (fun hx => ha hx.symm)] at h
      obtain ⟨p, q, hl, hxp, hxq⟩ := ih h
      exact ⟨a :: p, q, by rw [hl]; rfl, by
        simp only [List.mem_cons, not_or]
        exact ⟨fun hx => ha hx.symm, hxp⟩, hxq⟩

theorem foldl_addToFile_once (files : List String) (d line : String)
    (fh : FileHist) (f : String) (hcount : files.count f = 1) :
    fhFind f (files.foldl (fun acc g => addToFile g d line acc) fh) =
      some (pushLine d line ((fhFind f fh).getD [])) := by
  obtain ⟨p, q, rfl, hfp, hfq⟩ := count_one_split hcount
  rw [List.foldl_append, List.foldl_cons]
  rw [foldl_addToFile_not_mem q d line _ f hfq]
  rw [addToFile_find_self f d line _]
  rw [foldl_addToFile_not_mem p d line fh f hfp]

theorem applyCommit_eq (fh : FileHist) (c : Commit)
    (hcp : ¬ c.changedPaths = "")
    (hmg : isMergeCommit (rawMessage c) = false)
    (hcl : ¬ cleanMessage (rawMessage c) = "") :
    applyCommit fh c =
      (splitPaths c.changedPaths).foldl
        (fun acc f =>
          addToFile f (fmtDate c.commitDate) ("- " ++ cleanMessage (rawMessage c)) acc)
        fh := by
  unfold applyCommit
  rw [if_neg hcp, if_neg (by simp [hmg]), if_neg hcl]

theorem applyCommit_skip (fh : FileHist) (c : Commit)
    (h : c.changedPaths = "" ∨ isMergeCommit (rawMessage c) = true ∨
      cleanMessage (rawMessage c) = "") :
    applyCommit fh c = fh := by
  unfold applyCommit
  by_cases h1 : c.changedPaths = ""
  · rw [if_pos h1]
  · rw [if_neg h1]
    by_cases h2 : isMergeCommit (rawMessage c) = true
    · rw [if_pos h2]
    · rw [if_neg h2]
      rcases h with h | h | h
      · exact absurd h h1
      · exact absurd h h2
      · rw [if_pos h]

/-- C3: in the file-history construction, a commit matching the merge
heuristic contributes nothing to any file's history even if it lists
changed paths; and two non-merge commits on the same formatted date, each
touching the file exactly once, accumulate their cleaned messages as
dash-prefixed lines in one date bucket for that file, in commit
(oldest-to-newest) order. -/
theorem file_history_grouping_spec :
    (∀ (l1 l2 : List Commit) (c : Commit), isMergeCommit (rawMessage c) = true →
      buildFileHistory (l1 ++ c :: l2) = buildFileHistory (l1 ++ l2)) ∧
    (∀ (A B : Commit) (f : String),
      isMergeCommit (rawMessage A) = false →
      isMergeCommit (rawMessage B) = false →
      ¬ cleanMessage (rawMessage A) = "" →
      ¬ cleanMessage (rawMessage B) = "" →
      (splitPaths A.changedPaths).count f = 1 →
      (splitPaths B.changedPaths).count f = 1 →
      fmtDate B.commitDate = fmtDate A.commitDate →
      fhFind f (buildFileHistory [A, B]) =
        some [(fmtDate A.commitDate,
          ["- " ++ cleanMessage (rawMessage A), "- " ++ cleanMessage (rawMessage B)])]) := by
  constructor
  · intro l1 l2 c hmg
    unfold buildFileHistory
    rw [List.foldl_append, List.foldl_append, List.foldl_cons,
      applyCommit_skip _ c (Or.inr (Or.inl hmg))]
  · intro A B f hmgA hmgB hclA hclB hcA hcB hdate
    have hcpA : ¬ A.changedPaths = "" := by
      intro h
      rw [show splitPaths A.changedPaths = [] by rw [h]; rfl] at hcA
      simp [List.count_nil] at hcA
    have hcpB : ¬ B.changedPaths = "" := by
      intro h
      rw [show splitPaths B.changedPaths = [] by rw [h]; rfl] at hcB
      simp [List.count_nil] at hcB
    show fhFind f (applyCommit (applyCommit [] A) B) = _
    rw [applyCommit_eq _ A hcpA hmgA hclA, applyCommit_eq _ B hcpB hmgB hclB]
    rw [foldl_addToFile_once _ _ _ _ f hcB]
    rw [foldl_addToFile_once _ _ _ _ f hcA]
    show some (pushLine (fmtDate B.commitDate) _
      ((some (pushLine (fmtDate A.commitDate) _ ((fhFind f []).getD []))).getD [])) = _
    rw [hdate]
    simp [fhFind, pushLine]

/-- C3 witness: the merge-skip and same-date grouping properties on the
concrete two same-day commits touching src/x.ts and a concrete merge
commit. -/
theorem file_history_grouping_spec_witness :
    (isMergeCommit (rawMessage cMerge) = true ∧
     buildFileHistory ([] ++ cMerge :: []) = buildFileHistory ([] ++ [])) ∧
    (isMergeCommit (rawMessage cOld) = false ∧
     isMergeCommit (rawMessage cOld2) = false ∧
     (splitPaths cOld.changedPaths).count "src/x.ts" = 1 ∧
     (splitPaths cOld2.changedPaths).count "src/x.ts" = 1 ∧
     fmtDate cOld2.commitDate = fmtDate cOld.commitDate ∧
     fhFind "src/x.ts" (buildFileHistory [cOld, cOld2]) =
       some [(fmtDate cOld.commitDate,
         ["- " ++ cleanMessage (rawMessage cOld),
          "- " ++ cleanMessage (rawMessage cOld2)])]) :=
  ⟨⟨by decide, file_history_grouping_spec.1 [] [] cMerge (by decide)⟩,
   ⟨by decide, by decide, by decide, by decide, by decide,
    file_history_grouping_spec.2 cOld cOld2 "src/x.ts" (by decide) (by decide)
      (by decide) (by decide) (by decide) (by decide) (by decide)⟩⟩

/-! ## Claims C6 and C7 -/

theorem compileExport_ok (fl : ExportFilter) (store : List Commit)
    (ser : Workbook → Except String Nat) (wr cr : Except String Unit)
    (fileName : String) (jobs : List ExportJobRec) :
    compileExport fl store (.ok ()) ser wr cr fileName jobs =
      (match ser (buildWorkbook (store.filter (matchesFilter fl))) with
       | .error e => (.error e, jobs)
       | .ok size =>
         match wr with
         | .error e => (.error e, jobs)
         | .ok _ =>
           match cr with
           | .error e => (.error e, jobs)
           | .ok _ =>
             (.ok (.file fileName (store.filter (matchesFilter fl)).length),
              jobs ++ [⟨"COMPLETED", fileName, size,
                (store.filter (matchesFilter fl)).length⟩])) := rfl

/-- C6 counterexample: an export whose filter matches no commits (empty
store) with all external steps succeeding.  The claim as stated says the
call returns a structured error and produces no generated file; the code
instead returns the workbook (rowCount 0) and persists a COMPLETED
ExportJob. -/
theorem export_empty_no_error_cx :
    compileExport flNone [] (.ok ()) serOk (.ok ()) (.ok ()) "git-summary.xlsx" [] =
      (.ok (.file "git-summary.xlsx" 0),
       [⟨"COMPLETED", "git-summary.xlsx", 1024, 0⟩]) := by
  rfl

/-- C6 (amended): when loading, serialization, file write and record
creation all succeed, the export returns the generated file descriptor
with the total row count — including a row count of zero when the filter
matches no commits; no structured error is produced for an empty match
set, and the COMPLETED ExportJob is recorded either way. -/
theorem export_response_spec (fl : ExportFilter) (store : List Commit)
    (size : Nat) (ser : Workbook → Except String Nat)
    (fileName : String) (jobs : List ExportJobRec)
    (hser : ser (buildWorkbook (store.filter (matchesFilter fl))) = .ok size) :
    compileExport fl store (.ok ()) ser (.ok ()) (.ok ()) fileName jobs =
      (.ok (.file fileName (store.filter (matchesFilter fl)).length),
       jobs ++ [⟨"COMPLETED", fileName, size,
         (store.filter (matchesFilter fl)).length⟩]) := by
  rw [compileExport_ok, hser]

/-- C6 witness: the amended export response on a concrete store, and on
the concrete empty match set. -/
theorem export_response_spec_witness :
    (serOk (buildWorkbook ([cOld].filter (matchesFilter flNone))) = .ok 1024) ∧
    (compileExport flNone [cOld] (.ok ()) serOk (.ok ()) (.ok ()) "f.xlsx" [] =
      (.ok (.file "f.xlsx" ([cOld].filter (matchesFilter flNone)).length),
       [] ++ [⟨"COMPLETED", "f.xlsx", 1024, ([cOld].filter (matchesFilter flNone)).length⟩])) :=
  ⟨rfl, export_response_spec flNone [cOld] 1024 serOk "f.xlsx" [] rfl⟩

/-- C7: if any step of export loading or serialization fails, the whole
invocation aborts with a single error to the caller, and no ExportJob
record (in particular none with status COMPLETED) is persisted for that
invocation. -/
theorem export_abort_spec (fl : ExportFilter) (store : List Commit)
    (dbOk : Except String Unit) (ser : Workbook → Except String Nat)
    (wr cr : Except String Unit) (fileName : String) (jobs : List ExportJobRec)
    (hfail : (∃ e, dbOk = .error e) ∨
      (∃ e, ser (buildWorkbook (store.filter (matchesFilter fl))) = .error e) ∨
      (∃ e, wr = .error e) ∨ (∃ e, cr = .error e)) :
    (∃ msg, (compileExport fl store dbOk ser wr cr fileName jobs).1 = .error msg) ∧
    (compileExport fl store dbOk ser wr cr fileName jobs).2 = jobs := by
  cases dbOk with
  | error e => exact ⟨⟨e, rfl⟩, rfl⟩
  | ok u =>
    cases u
    rw [compileExport_ok]
    cases hser : ser (buildWorkbook (store.filter (matchesFilter fl))) with
    | error e => exact ⟨⟨e, rfl⟩, rfl⟩
    | ok size =>
      cases wr with
      | error e => exact ⟨⟨e, rfl⟩, rfl⟩
      | ok u2 =>
        cases u2
        cases cr with
        | error e => exact ⟨⟨e, rfl⟩, rfl⟩
        | ok u3 =>
          cases u3
          rcases hfail with ⟨e, he⟩ | ⟨e, he⟩ | ⟨e, he⟩ | ⟨e, he⟩
          · exact Except.noConfusion he
          · rw [hser] at he
            exact Except.noConfusion he
          · exact Except.noConfusion he
          · exact Except.noConfusion he

/-- C7 witness: the abort property at a concrete failing serialization
step. -/
theorem export_abort_spec_witness :
    (serFail (buildWorkbook ([cOld].filter (matchesFilter flNone))) =
      .error "serialization failed") ∧
    ((∃ msg, (compileExport flNone [cOld] (.ok ()) serFail (.ok ()) (.ok ())
        "f.xlsx" []).1 = .error msg) ∧
     (compileExport flNone [cOld] (.ok ()) serFail (.ok ()) (.ok ())
        "f.xlsx" []).2 = []) :=
  ⟨rfl, export_abort_spec flNone [cOld] (.ok ()) serFail (.ok ()) (.ok ())
    "f.xlsx" [] (Or.inr (Or.inl ⟨"serialization failed", rfl⟩))⟩

/-! ## Claim C8 -/

theorem strData_append (a b : String) : (a ++ b).data = a.data ++ b.data := by
  cases a
  cases b
  rfl

theorem containsStr_self (t : String) : ContainsStr t t :=
  ⟨[], [], by simp⟩

theorem containsStr_left {a t : String} (b : String) (h : ContainsStr a t) :
    ContainsStr (a ++ b) t := by
  obtain ⟨pre, post, hp⟩ := h
  exact ⟨pre, post ++ b.data, by rw [strData_append, hp]; simp⟩

theorem containsStr_right {b t : String} (a : String) (h : ContainsStr b t) :
    ContainsStr (a ++ b) t := by
  obtain ⟨pre, post, hp⟩ := h
  exact ⟨a.data ++ pre, post, by rw [strData_append, hp]; simp⟩

theorem buildLocalSummary_contains (input : ProgressReportInput) (reason : String) :
    ContainsStr (buildLocalSummary input reason) ("- Authors: " ++ authorsStr input) ∧
    ContainsStr (buildLocalSummary input reason) input.rangeStart ∧
    ContainsStr (buildLocalSummary input reason) input.rangeEnd ∧
    ContainsStr (buildLocalSummary input reason)
      ("- Total commits: " ++ (toString input.totalCommits ++ "\n")) ∧
    ContainsStr (buildLocalSummary input reason)
      ("- Files changed: " ++ (toString input.totalFilesChanged ++ "\n")) := by
  unfold buildLocalSummary
  refine ⟨?_, ?_, ?_, ?_, ?_⟩
  · exact containsStr_right _ (containsStr_right _ (containsStr_right _
      (containsStr_right _ (containsStr_right _ (containsStr_left _
        (containsStr_self _))))))
  · exact containsStr_right _ (containsStr_left _ (containsStr_self _))
  · exact containsStr_right _ (containsStr_right _ (containsStr_right _
      (containsStr_left _ (containsStr_self _))))
  · exact containsStr_right _ (containsStr_right _ (containsStr_right _
      (containsStr_right _ (containsStr_right _ (containsStr_right _
        (containsStr_right _ (containsStr_right _ (containsStr_right _
          (containsStr_left _ (containsStr_self _))))))))))
  · exact containsStr_right _ (containsStr_right _ (containsStr_right _
      (containsStr_right _ (containsStr_right _ (containsStr_right _
        (containsStr_right _ (containsStr_right _ (containsStr_right _
          (containsStr_right _ (containsStr_left _ (containsStr_self _)))))))))))

/-- C8: whenever the external narrative generator is disabled (no API
key), unreachable, rate limited, errors, or returns empty, the produced
summary is the deterministic local fallback, and it contains the full
author list, the date range start and end, the exact total commit count,
and the exact total files-changed count. -/
theorem narrative_fallback_spec (outcome : GenOutcome) (input : ProgressReportInput)
    (hfail : ∀ t, outcome = .ok t → t = "") :
    (∃ reason, generateProgressReport outcome input = buildLocalSummary input reason) ∧
    ContainsStr (generateProgressReport outcome input)
      ("- Authors: " ++ authorsStr input) ∧
    ContainsStr (generateProgressReport outcome input) input.rangeStart ∧
    ContainsStr (generateProgressReport outcome input) input.rangeEnd ∧
    ContainsStr (generateProgressReport outcome input)
      ("- Total commits: " ++ (toString input.totalCommits ++ "\n")) ∧
    ContainsStr (generateProgressReport outcome input)
      ("- Files changed: " ++ (toString input.totalFilesChanged ++ "\n")) := by
  have hloc : ∃ reason, generateProgressReport outcome input =
      buildLocalSummary input reason := by
    cases outcome with
    | noApiKey => exact ⟨"GEMINI_API_KEY not configured", rfl⟩
    | httpRateLimited => exact ⟨"Gemini API rate limited", rfl⟩
    | httpError => exact ⟨"Gemini API error", rfl⟩
    | exn => exact ⟨"Request failed", rfl⟩
    | ok t =>
      have ht : t = "" := hfail t rfl
      subst ht
      exact ⟨"Empty AI response", rfl⟩
  obtain ⟨reason, hr⟩ := hloc
  rw [hr]
  exact ⟨⟨reason, rfl⟩, buildLocalSummary_contains input reason⟩

/-- C8 witness: the fallback completeness at a concrete rate-limited
outcome and a concrete aggregate input. -/
theorem narrative_fallback_spec_witness :
    (∀ t, GenOutcome.httpRateLimited = GenOutcome.ok t → t = "") ∧
    ((∃ reason, generateProgressReport .httpRateLimited sampleReport =
        buildLocalSummary sampleReport reason) ∧
     ContainsStr (generateProgressReport .httpRateLimited sampleReport)
       ("- Authors: " ++ authorsStr sampleReport) ∧
     ContainsStr (generateProgressReport .httpRateLimited sampleReport)
       sampleReport.rangeStart ∧
     ContainsStr (generateProgressReport .httpRateLimited sampleReport)
       sampleReport.rangeEnd ∧
     ContainsStr (generateProgressReport .httpRateLimited sampleReport)
       ("- Total commits: " ++ (toString sampleReport.totalCommits ++ "\n")) ∧
     ContainsStr (generateProgressReport .httpRateLimited sampleReport)
       ("- Files changed: " ++ (toString sampleReport.totalFilesChanged ++ "\n"))) :=
  ⟨fun _ h => GenOutcome.noConfusion h,
   narrative_fallback_spec .httpRateLimited sampleReport
     (fun _ h => GenOutcome.noConfusion h)⟩

/-! ## Claim C9 -/

theorem upsertCommit_second (st : List Commit) (c : Commit) :
    upsertCommit (upsertCommit st c).2 c = (false, (upsertCommit st c).2) := by
  by_cases h : st.any (fun d => d.repositoryId == c.repositoryId && d.sha == c.sha) = true
  · simp [upsertCommit, h]
  · have hpred : ((fun d => d.repositoryId == c.repositoryId && d.sha == c.sha) c) = true := by
      simp
    have h2 : (st ++ [c]).any
        (fun d => d.repositoryId == c.repositoryId && d.sha == c.sha) = true := by
      rw [List.any_append]
      simp [hpred]
    simp [upsertCommit, h, h2]

theorem upsertCommit_pairCount (st : List Commit) (c : Commit) (r s : String)
    (h : pairCount st r s ≤ 1) : pairCount (upsertCommit st c).2 r s ≤ 1 := by
  by_cases hany : st.any (fun d => d.repositoryId == c.repositoryId && d.sha == c.sha) = true
  · simpa [upsertCommit, hany] using h
  · have h2 : (upsertCommit st c).2 = st ++ [c] := by simp [upsertCommit, hany]
    rw [h2]
    unfold pairCount
    rw [List.countP_append]
    by_cases hmatch : (c.repositoryId == r && c.sha == s) = true
    · simp only [Bool.and_eq_true, beq_iff_eq] at hmatch
      obtain ⟨hr, hs⟩ := hmatch
      subst hr
      subst hs
      have hz : st.countP (fun d => d.repositoryId == c.repositoryId && d.sha == c.sha) = 0 := by
        rw [List.countP_eq_zero]
        intro d hd
        have := List.any_eq_false.mp (Bool.eq_false_iff.mpr hany) d hd
        simpa using this
      rw [hz]
      simp [List.countP_cons]
    · have hone : List.countP (fun d => d.repositoryId == r && d.sha == s) [c] = 0 := by
        simp only [List.countP_cons, List.countP_nil]
        simp only [Bool.not_eq_true] at hmatch
        simp [hmatch]
      unfold pairCount at h
      omega

theorem upsertAll_pairCount (st : List Commit) (cs : List Commit) (r s : String)
    (h : pairCount st r s ≤ 1) : pairCount (upsertAll st cs) r s ≤ 1 := by
  induction cs generalizing st with
  | nil => exact h
  | cons c rest ih =>
    unfold upsertAll
    rw [List.foldl_cons]
    exact ih _ (upsertCommit_pairCount st c r s h)

/-- C9: upserting the same (repositoryId, sha) pair a second time is a
no-op that reports inserted=false, a single upsert preserves the
invariant of at most one stored row per (repositoryId, sha), and so does
any further sequence of ingestion upserts. -/
theorem upsert_idempotent_spec :
    (∀ (st : List Commit) (c : Commit),
      upsertCommit (upsertCommit st c).2 c = (false, (upsertCommit st c).2)) ∧
    (∀ (st : List Commit) (c : Commit) (r s : String),
      pairCount st r s ≤ 1 → pairCount (upsertCommit st c).2 r s ≤ 1) ∧
    (∀ (st : List Commit) (cs : List Commit) (r s : String),
      pairCount st r s ≤ 1 → pairCount (upsertAll st cs) r s ≤ 1) :=
  ⟨upsertCommit_second, upsertCommit_pairCount, upsertAll_pairCount⟩

/-- C9 witness: re-ingesting the same commit on a concrete store. -/
theorem upsert_idempotent_spec_witness :
    (upsertCommit (upsertCommit [] cOld).2 cOld = (false, (upsertCommit [] cOld).2)) ∧
    (pairCount [cNew] "r1" "sha-old" ≤ 1 ∧
     pairCount (upsertCommit [cNew] cOld).2 "r1" "sha-old" ≤ 1) ∧
    (pairCount [] "r1" "sha-old" ≤ 1 ∧
     pairCount (upsertAll [] [cOld, cNew, cOld]) "r1" "sha-old" ≤ 1) :=
  ⟨upsert_idempotent_spec.1 [] cOld,
   ⟨by decide, upsert_idempotent_spec.2.1 [cNew] cOld "r1" "sha-old" (by decide)⟩,
   ⟨by decide, upsert_idempotent_spec.2.2 [] [cOld, cNew, cOld] "r1" "sha-old" (by decide)⟩⟩

end GitDoc
